import Mathlib

/-!
Shallow embedding of the pycanape repository (a ctypes binding to the Vector
CANape DLL) and proofs about the behaviour its specification claims.

The embedding models:
* `CANapeDll._get_last_error` (cnp_api/cnp_prototype.py), the ctypes errcheck
  hook that turns falsy results into `CANapeError` exceptions;
* `_synchronize` and `CANapeDll._map_symbol` (cnp_api/cnp_prototype.py);
* `get_calibration_object` (calibration_object.py);
* the `FifoReader` polling reader of daq.py (`add_channel`, `clear_channels`,
  `_start`, `_stop`, `_read_fifo`, `get_sample`, `get_value`);
* `CANape._on_event` (canape.py).

Vendor DLL behaviour (results of `daq_get_fifo_level`, `daq_get_next_sample`,
errors raised by native calls, ...) is external input, so it enters the model
as explicit environment parameters; the Python control flow around it is
translated statement by statement.  Python float values only ever meet the
tests `math.isnan` and equality here, so they are embedded as `FVal`,
a rational number or the distinguished `nan`.
-/

namespace PyCANape

/-- Embedded Python float: a rational number, or the floating-point `nan`
(daq.py only ever inspects floats through `math.isnan`). -/
inductive FVal
  | nan : FVal
  | num (q : Rat) : FVal
deriving DecidableEq

/-- Embedding of `math.isnan`. -/
def FVal.isnan : FVal → Bool
  | .nan => true
  | .num _ => false

/-- Modelled from the spec: `ecu_task.py` is not among the sources, only its
callers are.  `Sample` is the per-channel measurement record imported from it
by daq.py; daq.py constructs it as `Sample(math.nan, math.nan)` and reads its
`value` attribute, and the spec calls it the "last known sample" of a
channel, so it is a record of a value and a timestamp. -/
structure Sample where
  value : FVal
  timestamp : FVal
deriving DecidableEq

/-- Embedding of `pycanape.utils.CANapeError`: an exception carrying the
error code, the error text and the name of the failing function
(utils.py, `CANapeError.__init__`). -/
structure CANapeError where
  error_code : Nat
  error_string : String
  function : String
deriving DecidableEq

/-- Result of a ctypes errcheck hook: the argument tuple is handed back to
ctypes, a `CANapeError` is raised, or the `ErrorCodes(error_code)` enum
lookup inside the f-string raises `ValueError` before any `CANapeError`
is constructed. -/
inductive ErrcheckResult (α : Type)
  | returned (args : α)
  | raised (e : CANapeError)
  | valueError
deriving DecidableEq

/-- The integer values of the members of the `ErrorCodes` enum
(cnp_api/cnp_constants.py): every value from 1 to 138 except 39, which the
enum skips (it jumps from `AEC_ACQ_STP_TIME_OVER = 38` to
`AEC_NOSERVER_ERRCODE = 40`). -/
def ErrorCodes.values : List Nat :=
  [1, 2, 3, 4, 5, 6, 7, 8, 9, 10, 11, 12, 13, 14, 15, 16, 17, 18, 19, 20,
   21, 22, 23, 24, 25, 26, 27, 28, 29, 30, 31, 32, 33, 34, 35, 36, 37, 38,
   40, 41, 42, 43, 44, 45, 46, 47, 48, 49, 50, 51, 52, 53, 54, 55, 56, 57,
   58, 59, 60, 61, 62, 63, 64, 65, 66, 67, 68, 69, 70, 71, 72, 73, 74, 75,
   76, 77, 78, 79, 80, 81, 82, 83, 84, 85, 86, 87, 88, 89, 90, 91, 92, 93,
   94, 95, 96, 97, 98, 99, 100, 101, 102, 103, 104, 105, 106, 107, 108,
   109, 110, 111, 112, 113, 114, 115, 116, 117, 118, 119, 120, 121, 122,
   123, 124, 125, 126, 127, 128, 129, 130, 131, 132, 133, 134, 135, 136,
   137, 138]

/-- Whether `ErrorCodes(c)` succeeds: `ErrorCodes` is a plain `IntEnum`
with no `_missing_` hook, so constructing it from a value that is not a
member raises `ValueError`. -/
def ErrorCodes.isMember (c : Nat) : Bool :=
  ErrorCodes.values.contains c

/-- Embedding of `CANapeDll._get_last_error` (cnp_prototype.py).  `result`
is the truthiness of the native call's return value, `lastError` the code
reported by `Asap3GetLastError`, `errText` the decoded message text from
`Asap3ErrorText`, `funcName` the `__name__` of the wrapped function and
`args` the call's argument tuple.  When the result is falsy and the code
is positive, the raising branch first evaluates
`cnp_constants.ErrorCodes(error_code).name`: if the code is not a member
of the enum this lookup raises `ValueError` and no `CANapeError` is ever
constructed. -/
def get_last_error {α : Type} (result : Bool) (lastError : Nat)
    (errText : String) (funcName : String) (args : α) : ErrcheckResult α :=
  if result then
    ErrcheckResult.returned args
  else if lastError > 0 then
    if ErrorCodes.isMember lastError then
      ErrcheckResult.raised ⟨lastError, errText, funcName⟩
    else
      ErrcheckResult.valueError
  else
    ErrcheckResult.returned args

/-- The six concrete calibration-object wrapper classes of
calibration_object.py. -/
inductive CalObjClass
  | ScalarCalibrationObject
  | CurveCalibrationObject
  | MapCalibrationObject
  | AxisCalibrationObject
  | AsciiCalibrationObject
  | ValueBlockCalibrationObject
deriving DecidableEq

/-- The `ValueType` enum of cnp_api/cnp_constants.py (an `IntEnum`). -/
inductive ValueType
  | VALUE
  | CURVE
  | MAP
  | AXIS
  | ASCII
  | VAL_BLK
deriving DecidableEq

/-- Integer value of each `ValueType` member (cnp_constants.py). -/
def ValueType.toNat : ValueType → Nat
  | .VALUE => 0
  | .CURVE => 1
  | .MAP => 2
  | .AXIS => 3
  | .ASCII => 4
  | .VAL_BLK => 5

/-- Embedding of the `cal_obj_map` dictionary built inside
`get_calibration_object` (calibration_object.py).  The key read from the
`DBObjectInfo` structure is a raw integer; because `ValueType` is an
`IntEnum`, dictionary lookup with the raw integer agrees with lookup by the
enum member of the same value, hence the map is embedded as a partial map on
the raw integer. -/
def cal_obj_map (t : Nat) : Option CalObjClass :=
  if t = ValueType.VALUE.toNat then some CalObjClass.ScalarCalibrationObject
  else if t = ValueType.CURVE.toNat then some CalObjClass.CurveCalibrationObject
  else if t = ValueType.MAP.toNat then some CalObjClass.MapCalibrationObject
  else if t = ValueType.AXIS.toNat then some CalObjClass.AxisCalibrationObject
  else if t = ValueType.ASCII.toNat then some CalObjClass.AsciiCalibrationObject
  else if t = ValueType.VAL_BLK.toNat then some CalObjClass.ValueBlockCalibrationObject
  else none

/-- Outcome of `get_calibration_object`: the chosen wrapper class, or one of
the two exceptions it raises. -/
inductive GetCalObjResult
  | ok (cls : CalObjClass)
  | keyError
  | typeError
deriving DecidableEq

/-- Embedding of `get_calibration_object` (calibration_object.py).  `found`
is the truthiness of the `Asap3GetDBObjectInfo` result and `objType` the
`type` field of the returned `DBObjectInfo` structure. -/
def get_calibration_object (found : Bool) (objType : Nat) : GetCalObjResult :=
  if !found then
    GetCalObjResult.keyError
  else
    match cal_obj_map objType with
    | some cls => GetCalObjResult.ok cls
    | none => GetCalObjResult.typeError

/-! Model of the `FifoReader` polling reader of daq.py.

The reader's channel dictionary is embedded as an insertion-ordered
association list (Python dicts preserve insertion order and iterate over it).
Calls into the vendor DLL (through the `EcuTask` wrapper) are external
events, so every iteration of `_read_fifo`'s polling loop consumes an
`IterEnv` describing what the DLL answered, and the functions additionally
return the list of observable events they performed, in order. -/

/-- Python exceptions that daq.py code can propagate. -/
inductive PyExc
  | canapeError (code : Nat)
  | indexError
deriving DecidableEq

/-- `ErrorCodes.AEC_NO_VALUES_SAMPLED` (cnp_constants.py). -/
def AEC_NO_VALUES_SAMPLED : Nat := 17

/-- The channel dictionary `FifoReader._channels`. -/
abbrev Channels := List (String × Sample)

/-- Observable events of the `FifoReader` (lock operations, `EcuTask` DLL
calls, dictionary writes, sleeping).  `checkOverrun` records the
`reset_overrun` argument; `getFifoLevel` records the returned level (`none`
when the call raised); `getNextSample` records the count argument;
`setChannel` records a write `self._channels[name] = s`. -/
inductive DaqEvent
  | acquireLock
  | releaseLock
  | checkOverrun (reset : Bool)
  | getFifoLevel (level : Option Nat)
  | getNextSample (count : Nat)
  | setChannel (name : String) (s : Sample)
  | sleep (rate : Rat)
deriving DecidableEq

/-- DLL answers consumed by one iteration of the polling loop:
the outcome of `daq_check_overrun()` (`none` means success, `some c` means a
`CANapeError` with code `c`), the outcome of `daq_get_fifo_level()`, and the
outcome of the `i`-th `daq_get_next_sample` call of the iteration. -/
structure IterEnv where
  overrunErr : Option Nat
  levelRes : Except Nat Nat
  sampleRes : Nat → Except Nat (List Sample)

/-- Embedding of the inner loop
`for j, channel_name in enumerate(self._channels): if not
math.isnan(samples[j].value): self._channels[channel_name] = samples[j]`
run for one drained sample list.  Returns the updated dictionary, the write
events, and `some indexError` when `samples[j]` was out of range (in which
case the earlier writes of this sweep have already happened and the
remaining entries are untouched). -/
def applySamples (samples : List Sample) :
    Channels → Nat → Channels × List DaqEvent × Option PyExc
  | [], _ => ([], [], none)
  | (name, old) :: rest, j =>
    match samples.get? j with
    | none => ((name, old) :: rest, [], some PyExc.indexError)
    | some s =>
      let r := applySamples samples rest (j + 1)
      if s.value.isnan then
        ((name, old) :: r.1, r.2.1, r.2.2)
      else
        ((name, s) :: r.1, DaqEvent.setChannel name s :: r.2.1, r.2.2)

/-- Embedding of `for i in range(level): samples =
self._task.daq_get_next_sample(self._count); ...` — the drain of `n`
remaining samples starting at call index `i`.  An exception (from the DLL
call or from indexing) aborts the drain and propagates. -/
def drainSamples (env : IterEnv) (count : Nat) :
    Nat → Nat → Channels → Channels × List DaqEvent × Option PyExc
  | _, 0, chs => (chs, [], none)
  | i, n + 1, chs =>
    match env.sampleRes i with
    | Except.error c =>
        (chs, [DaqEvent.getNextSample count], some (PyExc.canapeError c))
    | Except.ok samples =>
      let a := applySamples samples chs 0
      match a.2.2 with
      | some e => (a.1, DaqEvent.getNextSample count :: a.2.1, some e)
      | none =>
        let d := drainSamples env count (i + 1) n a.1
        (d.1, DaqEvent.getNextSample count :: (a.2.1 ++ d.2.1), d.2.2)

/-- Result of one iteration of the polling loop, or of a whole run: the
channel dictionary, the event trace, and the exception escaping, if any. -/
structure IterOut where
  channels : Channels
  trace : List DaqEvent
  exc : Option PyExc
deriving DecidableEq

/-- Embedding of one iteration of the `while not self.stopped` body of
`FifoReader._read_fifo` (daq.py): acquire the lock; inside `try`, call
`daq_check_overrun()`, read the FIFO level and drain that many samples;
swallow a `CANapeError` carrying `AEC_NO_VALUES_SAMPLED` and re-raise any
other `CANapeError`; release the lock in `finally`; sleep `refresh_rate`
seconds unless an exception is propagating. -/
def readFifoIter (env : IterEnv) (rate : Rat) (count : Nat)
    (chs : Channels) : IterOut :=
  let body : Channels × List DaqEvent × Option PyExc :=
    match env.overrunErr with
    | some c =>
        (chs, [DaqEvent.checkOverrun false], some (PyExc.canapeError c))
    | none =>
      match env.levelRes with
      | Except.error c =>
          (chs, [DaqEvent.checkOverrun false, DaqEvent.getFifoLevel none],
            some (PyExc.canapeError c))
      | Except.ok n =>
        let d := drainSamples env count 0 n chs
        (d.1,
          DaqEvent.checkOverrun false :: DaqEvent.getFifoLevel (some n) :: d.2.1,
          d.2.2)
  let handled : Option PyExc :=
    match body.2.2 with
    | some (PyExc.canapeError c) =>
        if c = AEC_NO_VALUES_SAMPLED then none else some (PyExc.canapeError c)
    | e => e
  match handled with
  | none =>
      ⟨body.1,
        DaqEvent.acquireLock ::
          (body.2.1 ++ [DaqEvent.releaseLock, DaqEvent.sleep rate]), none⟩
  | some e =>
      ⟨body.1, DaqEvent.acquireLock :: (body.2.1 ++ [DaqEvent.releaseLock]),
        some e⟩

/-- Environment of a whole `_read_fifo` run: the value of `self.stopped`
read at the top of iteration `k`, the DLL answers of iteration `k`, and the
outcome of the initial `daq_check_overrun(reset_overrun=True)`. -/
structure RunEnv where
  stopSched : Nat → Bool
  iterEnv : Nat → IterEnv
  initOverrunErr : Option Nat

/-- Result of a `_read_fifo` run: final channels, full trace, escaping
exception, and the number of loop-body iterations executed. -/
structure RunOut where
  channels : Channels
  trace : List DaqEvent
  exc : Option PyExc
  iters : Nat
deriving DecidableEq

/-- The `while not self.stopped` loop of `_read_fifo`, from iteration `k`
on, with `fuel` bounding the number of iterations the embedding may unfold
(`none` means the loop was still running when the fuel ran out). -/
def readFifoLoop (renv : RunEnv) (rate : Rat) (count : Nat) :
    Nat → Nat → Channels → Option RunOut
  | _, 0, _ => none
  | k, fuel + 1, chs =>
    if renv.stopSched k then
      some ⟨chs, [], none, 0⟩
    else
      let it := readFifoIter (renv.iterEnv k) rate count chs
      match it.exc with
      | some e => some ⟨it.channels, it.trace, some e, 1⟩
      | none =>
        match readFifoLoop renv rate count (k + 1) fuel it.channels with
        | none => none
        | some r =>
            some ⟨r.channels, it.trace ++ r.trace, r.exc, r.iters + 1⟩

/-- Embedding of `FifoReader._read_fifo` (daq.py): one
`daq_check_overrun(reset_overrun=True)` call, then the polling loop. -/
def readFifo (renv : RunEnv) (rate : Rat) (count : Nat) (fuel : Nat)
    (chs : Channels) : Option RunOut :=
  match renv.initOverrunErr with
  | some c =>
      some ⟨chs, [DaqEvent.checkOverrun true], some (PyExc.canapeError c), 0⟩
  | none =>
    match readFifoLoop renv rate count 0 fuel chs with
    | none => none
    | some r =>
        some ⟨r.channels, DaqEvent.checkOverrun true :: r.trace, r.exc,
          r.iters⟩

/-- Lock-discipline check on a daq trace: scanning left to right while
tracking the lock depth, every `setChannel` write must happen at positive
depth, i.e. while the reader's mutex is held. -/
def writesLocked : List DaqEvent → Nat → Bool
  | [], _ => true
  | DaqEvent.acquireLock :: rest, d => writesLocked rest (d + 1)
  | DaqEvent.releaseLock :: rest, d => writesLocked rest (d - 1)
  | DaqEvent.setChannel _ _ :: rest, d => decide (0 < d) && writesLocked rest d
  | _ :: rest, d => writesLocked rest d

/-- Recognizer for `daq_get_next_sample` call events. -/
def DaqEvent.isGetNextSample : DaqEvent → Bool
  | DaqEvent.getNextSample _ => true
  | _ => false

/-- Recognizer for `daq_check_overrun(reset_overrun=True)` call events. -/
def DaqEvent.isResetOverrun : DaqEvent → Bool
  | DaqEvent.checkOverrun true => true
  | _ => false

/-- Recognizer for channel-map writes whose written value is NaN. -/
def DaqEvent.isNanWrite : DaqEvent → Bool
  | DaqEvent.setChannel _ s => s.value.isnan
  | _ => false

/-- The pieces of `FifoReader` state touched by `add_channel` and
`clear_channels`: the channel dictionary and `self._count`. -/
structure ChanState where
  channels : Channels
  count : Nat
deriving DecidableEq

/-- A `daq_setup_channel(channel_name, polling_rate, save_to_file)` call. -/
inductive SetupEvent
  | setupChannel (name : String) (pollingRate : Int) (saveToFile : Bool)
deriving DecidableEq

/-- Result of `add_channel`: the new state, the `daq_setup_channel` calls
performed, and the exception escaping, if any. -/
structure AddOut where
  st : ChanState
  trace : List SetupEvent
  exc : Option PyExc
deriving DecidableEq

/-- Embedding of `FifoReader.add_channel` (daq.py): under the lock, when the
name is not yet a key of the dictionary, call `daq_setup_channel` (its
outcome is the environment input `setupErr`), store `Sample(math.nan,
math.nan)` under the name (Python dicts append new keys at the end) and set
`self._count = len(self._channels)`; when the name is already a key, do
nothing. -/
def add_channel (setupErr : Option Nat) (st : ChanState) (name : String)
    (pollingRate : Int) (saveToFile : Bool) : AddOut :=
  if (st.channels.lookup name).isSome then
    ⟨st, [], none⟩
  else
    match setupErr with
    | some c =>
        ⟨st, [SetupEvent.setupChannel name pollingRate saveToFile],
          some (PyExc.canapeError c)⟩
    | none =>
      let newChannels := st.channels ++ [(name, ⟨FVal.nan, FVal.nan⟩)]
      ⟨⟨newChannels, newChannels.length⟩,
        [SetupEvent.setupChannel name pollingRate saveToFile], none⟩

/-- Embedding of `FifoReader.clear_channels` (daq.py): under the lock,
clear the dictionary and set `self._count = len(self._channels)`. -/
def clear_channels (_st : ChanState) : ChanState :=
  ⟨[], ([] : Channels).length⟩

/-- `FifoReader.__init__` (daq.py): `self._channels = {}` and
`self._count = 0`. -/
def initChanState : ChanState := ⟨[], 0⟩

/-- Lock and dictionary-read events of the getters. -/
inductive GetEvent
  | acquire
  | readChannels (name : String)
  | release
deriving DecidableEq

/-- Embedding of `FifoReader.get_sample` (daq.py): acquire the lock, read
`self._channels[channel_name]`, release the lock, return the sample (the
`none` result models the `KeyError` raised when the name is not a key). -/
def get_sample (chs : Channels) (name : String) :
    Option Sample × List GetEvent :=
  (chs.lookup name,
    [GetEvent.acquire, GetEvent.readChannels name, GetEvent.release])

/-- Embedding of `FifoReader.get_value` (daq.py): like `get_sample` but the
`value` attribute of the sample is returned. -/
def get_value (chs : Channels) (name : String) :
    Option FVal × List GetEvent :=
  ((chs.lookup name).map Sample.value,
    [GetEvent.acquire, GetEvent.readChannels name, GetEvent.release])

/-- Abstract state of the threads managed by a `FifoReader`: the `stopped`
flag, the `_thread` attribute (`some t` is a `Thread` object with id `t`),
the ids of the spawned polling threads that are currently alive, and a
counter producing fresh thread ids. -/
structure ThreadState where
  stopped : Bool
  thread : Option Nat
  alive : List Nat
  nextId : Nat
deriving DecidableEq

/-- Embedding of `FifoReader._stop` (daq.py): set `self.stopped = True`;
then, if `self._thread` is not `None`, join it when it is alive (when
`join` returns the thread has terminated, so it leaves the alive set) and
set `self._thread = None`. -/
def FifoReader.stop (w : ThreadState) : ThreadState :=
  match w.thread with
  | none => ⟨true, none, w.alive, w.nextId⟩
  | some t => ⟨true, none, w.alive.erase t, w.nextId⟩

/-- Embedding of `FifoReader._start` (daq.py): call `self._stop()`, set
`self.stopped = False`, create a new `Thread` targeting `_read_fifo` and
start it (the new thread is alive). -/
def FifoReader.start (w : ThreadState) : ThreadState :=
  let w1 := FifoReader.stop w
  ⟨false, some w1.nextId, w1.alive ++ [w1.nextId], w1.nextId + 1⟩

/-- A polling thread terminating on its own (its loop exited). -/
def FifoReader.threadDies (t : Nat) (w : ThreadState) : ThreadState :=
  ⟨w.stopped, w.thread, w.alive.erase t, w.nextId⟩

/-- The events acting on the reader's thread state: the acquisition
start/stop callbacks registered in `FifoReader.__init__`, and spontaneous
termination of a polling thread. -/
inductive AcqEvent
  | acqStart
  | acqStop
  | die (t : Nat)
deriving DecidableEq

/-- One event applied to the thread state. -/
def stepThreads : AcqEvent → ThreadState → ThreadState
  | AcqEvent.acqStart, w => FifoReader.start w
  | AcqEvent.acqStop, w => FifoReader.stop w
  | AcqEvent.die t, w => FifoReader.threadDies t w

/-- `FifoReader.__init__` (daq.py): `self._thread = None`,
`self.stopped = True`. -/
def initThreadState : ThreadState := ⟨true, none, [], 0⟩

/-- The thread state after a sequence of events from the initial state. -/
def runThreads (evs : List AcqEvent) : ThreadState :=
  evs.foldl (fun w e => stepThreads e w) initThreadState

/-- Invariant of the thread state: every alive polling thread is the one
stored in `self._thread`, and at most one is alive. -/
def threadInv (w : ThreadState) : Prop :=
  (∀ t ∈ w.alive, w.thread = some t) ∧ w.alive.length ≤ 1

/-- Events of a call through the DLL wrapper of cnp_prototype.py:
acquiring or releasing a lock (by id), and the native invocation itself. -/
inductive DllEvent
  | lockAcquire (lockId : Nat)
  | lockRelease (lockId : Nat)
  | native (funcName : String)
deriving DecidableEq

/-- The single class-level `CANapeDll.lock` (an `RLock` shared by every
wrapper produced by `_map_symbol`), as a lock id. -/
def CANapeDll.lockId : Nat := 0

/-- Exceptions of the wrapper layer: `CANapeError` raised by an errcheck,
or the `NotImplementedError` raised by `CANapeDll._not_implemented`. -/
inductive DllExc
  | canapeError (code : Nat)
  | notImplementedError (funcName : String)
deriving DecidableEq

/-- Behaviour of one callable: the events it performs and its outcome. -/
structure Call (α : Type) where
  trace : List DllEvent
  result : Except DllExc α

/-- Embedding of `_synchronize` (cnp_prototype.py): `with CANapeDll.lock:`
acquires the class-level lock, runs the wrapped callable, and releases the
lock when the call returns or raises; an exception propagates only after
the release. -/
def synchronize {α : Type} (call : Call α) : Call α :=
  ⟨DllEvent.lockAcquire CANapeDll.lockId ::
      (call.trace ++ [DllEvent.lockRelease CANapeDll.lockId]),
    call.result⟩

/-- Embedding of `CANapeDll._map_symbol` (cnp_prototype.py): when the
symbol is found in the DLL, `sym` is the ctypes prototype (native call plus
optional errcheck); when the prototype constructor raises
`AttributeError`, the symbol is replaced by `_not_implemented`, which
raises `NotImplementedError`.  Either way the callable handed out is
`_synchronize(symbol)`. -/
def map_symbol {α : Type} (funcName : String) (sym : Option (Call α)) :
    Call α :=
  match sym with
  | some raw => synchronize raw
  | none =>
      synchronize ⟨[], Except.error (DllExc.notImplementedError funcName)⟩

/-- Lock-discipline check on a DLL trace: scanning left to right while
tracking the depth of the (reentrant) lock, every native invocation must
happen at positive depth, i.e. while the lock is held. -/
def nativesLocked : List DllEvent → Nat → Bool
  | [], _ => true
  | DllEvent.lockAcquire _ :: rest, d => nativesLocked rest (d + 1)
  | DllEvent.lockRelease _ :: rest, d => nativesLocked rest (d - 1)
  | DllEvent.native _ :: rest, d => decide (0 < d) && nativesLocked rest d

/-- Recognizer for native invocation events. -/
def DllEvent.isNative : DllEvent → Bool
  | DllEvent.native _ => true
  | _ => false

/-- A trace consisting solely of native invocations (the behaviour of a
ctypes symbol, which enters the DLL and does not touch Python locks). -/
def nativesOnly (l : List DllEvent) : Prop :=
  ∀ e ∈ l, DllEvent.isNative e = true

/-- The two client threads of the mutual-exclusion argument. -/
inductive Tid
  | A
  | B
deriving DecidableEq

/-- One step of an interleaved schedule: a thread performs an event. -/
abbrev SchedStep := Tid × DllEvent

/-- Semantics of one event against the shared reentrant lock (`RLock`):
acquiring succeeds when the lock is free or already owned by the acquiring
thread; releasing succeeds only for the owner, and the owner is cleared
when the depth returns to 0; native invocations do not touch the lock.
`none` means the thread would block (or the release is invalid), so the
step cannot be scheduled. -/
def lockStep (owner : Option Tid) (depth : Nat) (t : Tid) :
    DllEvent → Option (Option Tid × Nat)
  | DllEvent.lockAcquire _ =>
      if owner = none ∨ owner = some t then some (some t, depth + 1)
      else none
  | DllEvent.lockRelease _ =>
      if owner = some t then
        some (if depth = 1 then none else some t, depth - 1)
      else none
  | DllEvent.native _ => some (owner, depth)

/-- Validity of an interleaved schedule of two threads whose remaining
traces are `ra` and `rb`: each step must be the next event of that
thread's trace and must be enabled by the lock semantics, and both traces
must be fully consumed. -/
def consume : List SchedStep → List DllEvent → List DllEvent →
    Option Tid → Nat → Bool
  | [], ra, rb, _, _ => ra.isEmpty && rb.isEmpty
  | (Tid.A, e) :: s, ra, rb, owner, depth =>
    match ra, lockStep owner depth Tid.A e with
    | e' :: rest, some (o2, d2) =>
        decide (e = e') && consume s rest rb o2 d2
    | _, _ => false
  | (Tid.B, e) :: s, ra, rb, owner, depth =>
    match rb, lockStep owner depth Tid.B e with
    | e' :: rest, some (o2, d2) =>
        decide (e = e') && consume s ra rest o2 d2
    | _, _ => false

/-- The native invocations of a schedule, projected to the thread that
performed them, in schedule order. -/
def projTid (s : List SchedStep) : List Tid :=
  (s.filter fun p => DllEvent.isNative p.2).map Prod.fst

/-- A thread that has not yet entered its wrapped call (or has finished
it): its remaining trace is empty or still starts with the lock
acquisition. -/
def sideIdle (rx : List DllEvent) : Prop :=
  rx = []
  ∨ ∃ l, rx = DllEvent.lockAcquire CANapeDll.lockId ::
      (l ++ [DllEvent.lockRelease CANapeDll.lockId])
    ∧ nativesOnly l

/-- A thread in the middle of its wrapped call: the remaining trace is the
rest of its native work followed by the final release. -/
def sideMid (rx : List DllEvent) : Prop :=
  ∃ l, rx = l ++ [DllEvent.lockRelease CANapeDll.lockId] ∧ nativesOnly l

/-- Reachable-state invariant of the two-thread schedule: the lock owner is
exactly the thread that is inside its wrapped call, at depth 1, and a
thread is never inside while the other owns the lock. -/
def ConsumeInv (ra rb : List DllEvent) (owner : Option Tid) (depth : Nat) :
    Prop :=
  match owner with
  | none => depth = 0 ∧ sideIdle ra ∧ sideIdle rb
  | some Tid.A => depth = 1 ∧ sideMid ra ∧ sideIdle rb
  | some Tid.B => depth = 1 ∧ sideIdle ra ∧ sideMid rb

/-- Events of `CANape._on_event` (canape.py): invoking the `i`-th
registered callback of the event, and the `warnings.warn` replacing its
exception. -/
inductive CbEvent
  | invoke (i : Nat)
  | warn (i : Nat)
deriving DecidableEq

/-- The callback iteration of `CANape._on_event`: each registered callback
(listed, in the set's iteration order, by whether it raises) is called
inside `try`; an exception is caught, turned into a warning, and the
iteration continues with the next callback. -/
def onEventEvents : List Bool → Nat → List CbEvent
  | [], _ => []
  | r :: rest, i =>
      (CbEvent.invoke i :: (if r then [CbEvent.warn i] else []))
        ++ onEventEvents rest (i + 1)

/-- Embedding of `CANape._on_event` (canape.py): run every registered
callback of the event under the callback lock, catching each callback's
exception, then return 0. -/
def on_event (raises : List Bool) : Nat × List CbEvent :=
  (0, onEventEvents raises 0)

end PyCANape

namespace PyCANape

/-- C1 (amended): `_get_last_error` returns the output arguments unchanged
whenever the native result is truthy; on a falsy result with reported
error code greater than zero that is a member of the `ErrorCodes` enum it
raises a `CANapeError` whose `error_code` equals that code; on a falsy
result with reported code zero it returns the arguments without raising;
but on a falsy result with a positive code that is not a member of the
enum (39, or anything above 138) the `ErrorCodes(error_code)` lookup
raises `ValueError` and no `CANapeError` is constructed. -/
theorem c1_get_last_error {α : Type} (lastError : Nat)
    (errText funcName : String) (args : α) :
    get_last_error true lastError errText funcName args
      = ErrcheckResult.returned args
    ∧ (0 < lastError → ErrorCodes.isMember lastError = true →
        ∃ e : CANapeError,
          get_last_error false lastError errText funcName args
            = ErrcheckResult.raised e ∧ e.error_code = lastError)
    ∧ get_last_error false 0 errText funcName args
      = ErrcheckResult.returned args
    ∧ (0 < lastError → ErrorCodes.isMember lastError = false →
        get_last_error false lastError errText funcName args
          = ErrcheckResult.valueError) := by
  refine ⟨rfl,
    fun h hm => ⟨⟨lastError, errText, funcName⟩, ?_, rfl⟩, rfl,
    fun h hm => ?_⟩
  · simp [get_last_error, h, hm]
  · simp [get_last_error, h, hm]

theorem c1_get_last_error_witness :
    get_last_error true 17 "txt" "Asap3GetVersion" (5 : Nat)
      = ErrcheckResult.returned 5
    ∧ (∃ e : CANapeError,
        get_last_error false 17 "txt" "Asap3GetVersion" (5 : Nat)
          = ErrcheckResult.raised e ∧ e.error_code = 17)
    ∧ get_last_error false 0 "txt" "Asap3GetVersion" (5 : Nat)
      = ErrcheckResult.returned 5
    ∧ get_last_error false 39 "txt" "Asap3GetVersion" (5 : Nat)
      = ErrcheckResult.valueError := by
  obtain ⟨h1, h2, h3, -⟩ :=
    c1_get_last_error (α := Nat) 17 "txt" "Asap3GetVersion" 5
  obtain ⟨-, -, -, h4⟩ :=
    c1_get_last_error (α := Nat) 39 "txt" "Asap3GetVersion" 5
  exact ⟨h1, h2 (by decide) (by decide), h3, h4 (by decide) (by decide)⟩

theorem c1_counterexample :
    ¬ (∀ (lastError : Nat) (errText funcName : String) (args : Nat),
        0 < lastError →
        ∃ e : CANapeError,
          get_last_error false lastError errText funcName args
            = ErrcheckResult.raised e ∧ e.error_code = lastError) := by
  intro hclaim
  obtain ⟨e, he, -⟩ := hclaim 39 "txt" "Asap3GetVersion" 5 (by decide)
  have hv : get_last_error false 39 "txt" "Asap3GetVersion" (5 : Nat)
      = ErrcheckResult.valueError := by decide
  rw [hv] at he
  exact ErrcheckResult.noConfusion he

/-- C7: `get_calibration_object` dispatches exactly on the object's value
type (VALUE, CURVE, MAP, AXIS, ASCII, VAL_BLK map to the six wrapper
classes), raises `KeyError` whenever the object is not found, and raises
`TypeError` whenever it is found but its value type is none of the six. -/
theorem c7_get_calibration_object :
    (∀ t : Nat, get_calibration_object false t = GetCalObjResult.keyError)
    ∧ get_calibration_object true ValueType.VALUE.toNat
        = GetCalObjResult.ok CalObjClass.ScalarCalibrationObject
    ∧ get_calibration_object true ValueType.CURVE.toNat
        = GetCalObjResult.ok CalObjClass.CurveCalibrationObject
    ∧ get_calibration_object true ValueType.MAP.toNat
        = GetCalObjResult.ok CalObjClass.MapCalibrationObject
    ∧ get_calibration_object true ValueType.AXIS.toNat
        = GetCalObjResult.ok CalObjClass.AxisCalibrationObject
    ∧ get_calibration_object true ValueType.ASCII.toNat
        = GetCalObjResult.ok CalObjClass.AsciiCalibrationObject
    ∧ get_calibration_object true ValueType.VAL_BLK.toNat
        = GetCalObjResult.ok CalObjClass.ValueBlockCalibrationObject
    ∧ (∀ t : Nat, (∀ v : ValueType, t ≠ v.toNat) →
        get_calibration_object true t = GetCalObjResult.typeError) := by
  refine ⟨fun t => rfl, rfl, rfl, rfl, rfl, rfl, rfl, fun t h => ?_⟩
  have h0 := h ValueType.VALUE
  have h1 := h ValueType.CURVE
  have h2 := h ValueType.MAP
  have h3 := h ValueType.AXIS
  have h4 := h ValueType.ASCII
  have h5 := h ValueType.VAL_BLK
  simp [ValueType.toNat] at h0 h1 h2 h3 h4 h5
  simp [get_calibration_object, cal_obj_map, ValueType.toNat,
    h0, h1, h2, h3, h4, h5]

theorem c7_get_calibration_object_witness :
    get_calibration_object false 0 = GetCalObjResult.keyError
    ∧ get_calibration_object true 6 = GetCalObjResult.typeError := by
  obtain ⟨hkey, -, -, -, -, -, -, htype⟩ := c7_get_calibration_object
  exact ⟨hkey 0, htype 6 (fun v => by cases v <;> decide)⟩

theorem applySamples_map_fst (ss : List Sample) :
    ∀ (chs : Channels) (j : Nat),
      ((applySamples ss chs j).1).map Prod.fst = chs.map Prod.fst := by
  intro chs
  induction chs with
  | nil => intro j; simp [applySamples]
  | cons hd tl ih =>
    intro j
    obtain ⟨name, old⟩ := hd
    simp only [applySamples]
    cases hg : ss.get? j with
    | none => simp
    | some s =>
      by_cases hn : s.value.isnan
      · simp [hn, ih]
      · simp [hn, ih]

theorem applySamples_length (ss : List Sample) (chs : Channels) (j : Nat) :
    ((applySamples ss chs j).1).length = chs.length := by
  have h := applySamples_map_fst ss chs j
  calc ((applySamples ss chs j).1).length
      = (((applySamples ss chs j).1).map Prod.fst).length := by
        rw [List.length_map]
    _ = (chs.map Prod.fst).length := by rw [h]
    _ = chs.length := by rw [List.length_map]

theorem applySamples_events (ss : List Sample) :
    ∀ (chs : Channels) (j : Nat),
      ∀ e ∈ (applySamples ss chs j).2.1,
        ∃ nm s, e = DaqEvent.setChannel nm s ∧ s.value.isnan = false := by
  intro chs
  induction chs with
  | nil => intro j e he; simp [applySamples] at he
  | cons hd tl ih =>
    intro j e he
    obtain ⟨name, old⟩ := hd
    simp only [applySamples] at he
    cases hg : ss.get? j with
    | none => rw [hg] at he; simp at he
    | some s =>
      rw [hg] at he
      by_cases hn : s.value.isnan
      · simp only [hn, if_pos] at he
        exact ih (j + 1) e he
      · simp only [hn, Bool.false_eq_true, if_neg, not_false_iff,
          List.mem_cons] at he
        rcases he with he | he
        · exact ⟨name, s, he, by simpa using hn⟩
        · exact ih (j + 1) e he

theorem applySamples_exc_none (ss : List Sample) :
    ∀ (chs : Channels) (j : Nat), j + chs.length ≤ ss.length →
      (applySamples ss chs j).2.2 = none := by
  intro chs
  induction chs with
  | nil => intro j _; simp [applySamples]
  | cons hd tl ih =>
    intro j hj
    obtain ⟨name, old⟩ := hd
    have hlt : j < ss.length := by
      simp only [List.length_cons] at hj
      omega
    have hs : ss.get? j = some (ss.get ⟨j, hlt⟩) := List.get?_eq_get hlt
    have hrec := ih (j + 1) (by simp only [List.length_cons] at hj; omega)
    simp only [applySamples]
    rw [hs]
    simp only [hrec]
    split <;> rfl

theorem drainSamples_map_fst (env : IterEnv) (count : Nat) :
    ∀ (n i : Nat) (chs : Channels),
      ((drainSamples env count i n chs).1).map Prod.fst = chs.map Prod.fst := by
  intro n
  induction n with
  | zero => intro i chs; simp [drainSamples]
  | succ n ih =>
    intro i chs
    rcases hres : env.sampleRes i with c | samples <;>
      simp only [drainSamples, hres]
    rcases hexc : (applySamples samples chs 0).2.2 with - | e <;>
      simp only [hexc]
    · simp [ih, applySamples_map_fst]
    · simp [applySamples_map_fst]

theorem drainSamples_events (env : IterEnv) (count : Nat) :
    ∀ (n i : Nat) (chs : Channels),
      ∀ e ∈ (drainSamples env count i n chs).2.1,
        e = DaqEvent.getNextSample count
        ∨ ∃ nm s, e = DaqEvent.setChannel nm s ∧ s.value.isnan = false := by
  intro n
  induction n with
  | zero => intro i chs e he; simp [drainSamples] at he
  | succ n ih =>
    intro i chs e he
    rcases hres : env.sampleRes i with c | samples <;>
      simp only [drainSamples, hres] at he
    · simp only [List.mem_singleton] at he
      exact Or.inl he
    · rcases hexc : (applySamples samples chs 0).2.2 with - | e2 <;>
        simp only [hexc] at he
      · simp only [List.mem_cons, List.mem_append] at he
        rcases he with he | he | he
        · exact Or.inl he
        · exact Or.inr (applySamples_events samples chs 0 e he)
        · exact ih (i + 1) (applySamples samples chs 0).1 e he
      · simp only [List.mem_cons] at he
        rcases he with he | he
        · exact Or.inl he
        · exact Or.inr (applySamples_events samples chs 0 e he)

theorem filter_getNext_eq_nil (l : List DaqEvent)
    (h : ∀ e ∈ l, ∃ nm s, e = DaqEvent.setChannel nm s ∧ s.value.isnan = false) :
    l.filter DaqEvent.isGetNextSample = [] := by
  rw [List.filter_eq_nil_iff]
  intro e he
  obtain ⟨nm, s, hes, -⟩ := h e he
  subst hes
  simp [DaqEvent.isGetNextSample]

theorem drainSamples_ok (env : IterEnv) (count : Nat) :
    ∀ (n i : Nat) (chs : Channels),
      (∀ i', i ≤ i' → i' < i + n →
        ∃ ss, env.sampleRes i' = Except.ok ss ∧ chs.length ≤ ss.length) →
      (drainSamples env count i n chs).2.2 = none
      ∧ ((drainSamples env count i n chs).2.1.filter
          DaqEvent.isGetNextSample).length = n := by
  intro n
  induction n with
  | zero => intro i chs _; simp [drainSamples]
  | succ n ih =>
    intro i chs hsm
    obtain ⟨ss, hss, hlen⟩ := hsm i le_rfl (by omega)
    have happ : (applySamples ss chs 0).2.2 = none :=
      applySamples_exc_none ss chs 0 (by omega)
    have hlen2 : ((applySamples ss chs 0).1).length = chs.length :=
      applySamples_length ss chs 0
    have hrec := ih (i + 1) (applySamples ss chs 0).1 (by
      intro i' h1 h2
      obtain ⟨ss', h3, h4⟩ := hsm i' (by omega) (by omega)
      exact ⟨ss', h3, by omega⟩)
    have hfil : ((applySamples ss chs 0).2.1).filter
        DaqEvent.isGetNextSample = [] :=
      filter_getNext_eq_nil _ (applySamples_events ss chs 0)
    simp only [drainSamples]
    rw [hss]
    simp only [happ]
    constructor
    · exact hrec.1
    · simp [List.filter_cons, List.filter_append, hfil,
        DaqEvent.isGetNextSample, hrec.2]

theorem readFifoIter_ok (env : IterEnv) (rate : Rat) (count n : Nat)
    (chs : Channels)
    (hov : env.overrunErr = none) (hlv : env.levelRes = Except.ok n)
    (hsm : ∀ i, i < n →
      ∃ ss, env.sampleRes i = Except.ok ss ∧ chs.length ≤ ss.length) :
    (readFifoIter env rate count chs).trace
      = DaqEvent.acquireLock :: DaqEvent.checkOverrun false
        :: DaqEvent.getFifoLevel (some n)
        :: ((drainSamples env count 0 n chs).2.1
            ++ [DaqEvent.releaseLock, DaqEvent.sleep rate])
    ∧ (readFifoIter env rate count chs).exc = none := by
  have hd := drainSamples_ok env count n 0 chs (by
    intro i' h1 h2
    exact hsm i' (by omega))
  constructor
  · simp only [readFifoIter, hov, hlv, hd.1]
    simp
  · simp only [readFifoIter, hov, hlv, hd.1]

theorem writesLocked_tail (rate : Rat) (count : Nat) :
    ∀ (l : List DaqEvent) (d : Nat), 0 < d →
      (∀ e ∈ l, e = DaqEvent.getNextSample count
        ∨ ∃ nm s, e = DaqEvent.setChannel nm s ∧ s.value.isnan = false) →
      writesLocked (l ++ [DaqEvent.releaseLock, DaqEvent.sleep rate]) d
        = true := by
  intro l
  induction l with
  | nil => intro d _ _; simp [writesLocked]
  | cons e l ih =>
    intro d hd hall
    have hdec : decide (0 < d) = true := decide_eq_true hd
    rcases hall e (List.mem_cons_self e l) with he | ⟨nm, s, he, -⟩ <;>
      subst he
    · simpa [writesLocked] using
        ih d hd (fun e' he' => hall e' (List.mem_cons_of_mem _ he'))
    · simp only [List.cons_append, writesLocked, hdec, Bool.true_and]
      exact ih d hd (fun e' he' => hall e' (List.mem_cons_of_mem _ he'))

theorem filter_reset_drain (env : IterEnv) (count n i : Nat)
    (chs : Channels) :
    ((drainSamples env count i n chs).2.1).filter
      DaqEvent.isResetOverrun = [] := by
  rw [List.filter_eq_nil_iff]
  intro e he
  rcases drainSamples_events env count n i chs e he with h | ⟨nm, s, h, -⟩ <;>
    subst h <;> simp [DaqEvent.isResetOverrun]

theorem readFifoIter_no_reset (env : IterEnv) (rate : Rat) (count : Nat)
    (chs : Channels) :
    ((readFifoIter env rate count chs).trace).filter
      DaqEvent.isResetOverrun = [] := by
  have hdrain : ∀ n, ((drainSamples env count 0 n chs).2.1).filter
      DaqEvent.isResetOverrun = [] :=
    fun n => filter_reset_drain env count n 0 chs
  rcases hov : env.overrunErr with - | c
  · rcases hlv : env.levelRes with c | n
    · simp only [readFifoIter, hov, hlv]
      by_cases hc : c = AEC_NO_VALUES_SAMPLED <;>
        simp [hc, List.filter, DaqEvent.isResetOverrun]
    · rcases hex : (drainSamples env count 0 n chs).2.2 with - | e2
      · simp only [readFifoIter, hov, hlv, hex]
        simp [List.filter_append, List.filter_cons, hdrain n,
          DaqEvent.isResetOverrun]
      · rcases e2 with c2 | -
        · simp only [readFifoIter, hov, hlv, hex]
          by_cases hc : c2 = AEC_NO_VALUES_SAMPLED <;>
            simp [hc, List.filter_append, List.filter_cons, hdrain n,
              DaqEvent.isResetOverrun]
        · simp only [readFifoIter, hov, hlv, hex]
          simp [List.filter_append, List.filter_cons, hdrain n,
            DaqEvent.isResetOverrun]
  · simp only [readFifoIter, hov]
    by_cases hc : c = AEC_NO_VALUES_SAMPLED <;>
      simp [hc, List.filter, DaqEvent.isResetOverrun]

theorem readFifoLoop_no_reset (renv : RunEnv) (rate : Rat) (count : Nat) :
    ∀ (fuel k : Nat) (chs : Channels) (r : RunOut),
      readFifoLoop renv rate count k fuel chs = some r →
      r.trace.filter DaqEvent.isResetOverrun = [] := by
  intro fuel
  induction fuel with
  | zero => intro k chs r h; simp [readFifoLoop] at h
  | succ fuel ih =>
    intro k chs r h
    by_cases hs : renv.stopSched k = true
    · simp only [readFifoLoop, hs, if_pos] at h
      obtain rfl := Option.some.inj h
      rfl
    · simp only [readFifoLoop, hs, if_neg, Bool.false_eq_true,
        not_false_iff] at h
      rcases hex : (readFifoIter (renv.iterEnv k) rate count chs).exc
        with - | e <;> rw [hex] at h
      · rcases hloop : readFifoLoop renv rate count (k + 1) fuel
            (readFifoIter (renv.iterEnv k) rate count chs).channels
          with - | r' <;> rw [hloop] at h
        · exact absurd h (by simp)
        · obtain rfl := Option.some.inj h
          simp only [List.filter_append,
            readFifoIter_no_reset (renv.iterEnv k) rate count chs,
            ih (k + 1) _ r' hloop, List.nil_append]
      · obtain rfl := Option.some.inj h
        exact readFifoIter_no_reset (renv.iterEnv k) rate count chs

theorem readFifo_reset_once (renv : RunEnv) (rate : Rat) (count fuel : Nat)
    (chs : Channels) (r : RunOut)
    (h : readFifo renv rate count fuel chs = some r) :
    (r.trace.filter DaqEvent.isResetOverrun).length = 1
    ∧ r.trace.head? = some (DaqEvent.checkOverrun true) := by
  simp only [readFifo] at h
  rcases hov : renv.initOverrunErr with - | c <;> rw [hov] at h
  · rcases hloop : readFifoLoop renv rate count 0 fuel chs
      with - | r' <;> rw [hloop] at h
    · exact absurd h (by simp)
    · obtain rfl := Option.some.inj h
      constructor
      · simp [List.filter_cons, DaqEvent.isResetOverrun,
          readFifoLoop_no_reset renv rate count fuel 0 chs r' hloop]
      · rfl
  · obtain rfl := Option.some.inj h
    constructor
    · simp [List.filter, DaqEvent.isResetOverrun]
    · rfl

/-- C2: in any iteration of the `_read_fifo` polling loop whose DLL calls
all succeed, the iteration performs, in order: the lock acquisition, one
`daq_check_overrun` call without reset, one `daq_get_fifo_level` call
reporting `n`, a drain phase in which `daq_get_next_sample` is called once
per reported sample, always with the channel count as argument,
interleaved with the channel-map writes, then the lock release and one
sleep of `refresh_rate` seconds; every channel-map write happens while the
mutex is held, and the whole `_read_fifo` run performs exactly one
`daq_check_overrun(reset_overrun=True)` call, as its first event, before
the loop starts. -/
theorem c2_polling_iteration (env : IterEnv) (rate : Rat) (count n : Nat)
    (chs : Channels)
    (hov : env.overrunErr = none) (hlv : env.levelRes = Except.ok n)
    (hsm : ∀ i, i < n →
      ∃ ss, env.sampleRes i = Except.ok ss ∧ chs.length ≤ ss.length) :
    (∃ drainEvs,
      (readFifoIter env rate count chs).trace
        = DaqEvent.acquireLock :: DaqEvent.checkOverrun false
          :: DaqEvent.getFifoLevel (some n)
          :: (drainEvs ++ [DaqEvent.releaseLock, DaqEvent.sleep rate])
      ∧ (drainEvs.filter DaqEvent.isGetNextSample).length = n
      ∧ (∀ e ∈ drainEvs, e = DaqEvent.getNextSample count
          ∨ ∃ nm s, e = DaqEvent.setChannel nm s)
      ∧ (readFifoIter env rate count chs).exc = none
      ∧ writesLocked (readFifoIter env rate count chs).trace 0 = true)
    ∧ (∀ (renv : RunEnv) (fuel : Nat) (chs' : Channels) (r : RunOut),
        readFifo renv rate count fuel chs' = some r →
        (r.trace.filter DaqEvent.isResetOverrun).length = 1
        ∧ r.trace.head? = some (DaqEvent.checkOverrun true)) := by
  constructor
  · obtain ⟨htr, hexc⟩ := readFifoIter_ok env rate count n chs hov hlv hsm
    have hd := drainSamples_ok env count n 0 chs (by
      intro i' h1 h2
      exact hsm i' (by omega))
    refine ⟨(drainSamples env count 0 n chs).2.1, htr, hd.2, ?_, hexc, ?_⟩
    · intro e he
      rcases drainSamples_events env count n 0 chs e he with h | ⟨nm, s, h, -⟩
      · exact Or.inl h
      · exact Or.inr ⟨nm, s, h⟩
    · rw [htr]
      simp only [writesLocked]
      exact writesLocked_tail rate count (drainSamples env count 0 n chs).2.1
        1 (by omega) (drainSamples_events env count n 0 chs)
  · intro renv fuel chs' r h
    exact readFifo_reset_once renv rate count fuel chs' r h

theorem c2_polling_iteration_witness :
    ∃ drainEvs,
      (readFifoIter
        ⟨none, Except.ok 1,
          fun _ => Except.ok [⟨FVal.num 1, FVal.num 2⟩]⟩ 1 1
        [("chan", ⟨FVal.nan, FVal.nan⟩)]).trace
        = DaqEvent.acquireLock :: DaqEvent.checkOverrun false
          :: DaqEvent.getFifoLevel (some 1)
          :: (drainEvs ++ [DaqEvent.releaseLock, DaqEvent.sleep 1])
      ∧ (drainEvs.filter DaqEvent.isGetNextSample).length = 1
      ∧ (∀ e ∈ drainEvs, e = DaqEvent.getNextSample 1
          ∨ ∃ nm s, e = DaqEvent.setChannel nm s)
      ∧ (readFifoIter
          ⟨none, Except.ok 1,
            fun _ => Except.ok [⟨FVal.num 1, FVal.num 2⟩]⟩ 1 1
          [("chan", ⟨FVal.nan, FVal.nan⟩)]).exc = none
      ∧ writesLocked (readFifoIter
          ⟨none, Except.ok 1,
            fun _ => Except.ok [⟨FVal.num 1, FVal.num 2⟩]⟩ 1 1
          [("chan", ⟨FVal.nan, FVal.nan⟩)]).trace 0 = true :=
  (c2_polling_iteration
    ⟨none, Except.ok 1, fun _ => Except.ok [⟨FVal.num 1, FVal.num 2⟩]⟩
    1 1 1 [("chan", ⟨FVal.nan, FVal.nan⟩)] rfl rfl
    (fun i _ => ⟨[⟨FVal.num 1, FVal.num 2⟩], rfl, by decide⟩)).1

/-- C9: `add_channel` is idempotent per channel name — when the name is
already a key, the state (dictionary, stored sample and count) is returned
unchanged and `daq_setup_channel` is not called — and after `add_channel`
or `clear_channels` (and initially), `self._count` equals the number of
dictionary entries. -/
theorem c9_add_channel_idempotent (setupErr : Option Nat) (st : ChanState)
    (name : String) (pollingRate : Int) (saveToFile : Bool) :
    ((st.channels.lookup name).isSome = true →
      add_channel setupErr st name pollingRate saveToFile = ⟨st, [], none⟩)
    ∧ (st.count = st.channels.length →
        (add_channel setupErr st name pollingRate saveToFile).st.count
          = (add_channel setupErr st name pollingRate
              saveToFile).st.channels.length)
    ∧ (clear_channels st).count = (clear_channels st).channels.length
    ∧ initChanState.count = initChanState.channels.length := by
  refine ⟨fun h => ?_, fun h => ?_, rfl, rfl⟩
  · simp [add_channel, h]
  · by_cases hp : (st.channels.lookup name).isSome
    · simp [add_channel, hp, h]
    · cases setupErr with
      | some c => simp [add_channel, hp, h]
      | none => simp [add_channel, hp]

theorem c9_add_channel_idempotent_witness :
    add_channel none ⟨[("a", ⟨FVal.nan, FVal.nan⟩)], 1⟩ "a" 10 false
      = ⟨⟨[("a", ⟨FVal.nan, FVal.nan⟩)], 1⟩, [], none⟩
    ∧ (add_channel none ⟨[("a", ⟨FVal.nan, FVal.nan⟩)], 1⟩ "a" 10
        false).st.count
      = (add_channel none ⟨[("a", ⟨FVal.nan, FVal.nan⟩)], 1⟩ "a" 10
          false).st.channels.length := by
  obtain ⟨h1, h2, -, -⟩ :=
    c9_add_channel_idempotent none ⟨[("a", ⟨FVal.nan, FVal.nan⟩)], 1⟩ "a"
      10 false
  exact ⟨h1 (by decide), h2 (by decide)⟩

/-- C4: for a channel name present in the dictionary, `get_sample` returns
the stored sample and `get_value` returns that sample's `value` field, and
both getters acquire the mutex, then read the dictionary, then release the
mutex before returning. -/
theorem c4_getters (chs : Channels) (name : String) (s : Sample)
    (h : chs.lookup name = some s) :
    (get_sample chs name).1 = some s
    ∧ (get_value chs name).1 = some s.value
    ∧ (get_sample chs name).2
        = [GetEvent.acquire, GetEvent.readChannels name, GetEvent.release]
    ∧ (get_value chs name).2
        = [GetEvent.acquire, GetEvent.readChannels name,
            GetEvent.release] := by
  refine ⟨?_, ?_, rfl, rfl⟩ <;> simp [get_sample, get_value, h]

theorem c4_getters_witness :
    (get_sample [("chan", ⟨FVal.num 3, FVal.num 4⟩)] "chan").1
      = some ⟨FVal.num 3, FVal.num 4⟩
    ∧ (get_value [("chan", ⟨FVal.num 3, FVal.num 4⟩)] "chan").1
      = some (Sample.mk (FVal.num 3) (FVal.num 4)).value
    ∧ (get_sample [("chan", ⟨FVal.num 3, FVal.num 4⟩)] "chan").2
        = [GetEvent.acquire, GetEvent.readChannels "chan",
            GetEvent.release]
    ∧ (get_value [("chan", ⟨FVal.num 3, FVal.num 4⟩)] "chan").2
        = [GetEvent.acquire, GetEvent.readChannels "chan",
            GetEvent.release] :=
  c4_getters [("chan", ⟨FVal.num 3, FVal.num 4⟩)] "chan"
    ⟨FVal.num 3, FVal.num 4⟩ (by decide)

theorem onEventEvents_invoke_mem :
    ∀ (l : List Bool) (k i : Nat), i < l.length →
      CbEvent.invoke (k + i) ∈ onEventEvents l k := by
  intro l
  induction l with
  | nil => intro k i hi; simp at hi
  | cons r rest ih =>
    intro k i hi
    cases i with
    | zero => simp [onEventEvents]
    | succ i =>
      have := ih (k + 1) i (by simpa using hi)
      simp only [onEventEvents, List.mem_append]
      right
      convert this using 2
      omega

theorem onEventEvents_warn_mem :
    ∀ (l : List Bool) (k i : Nat), l.get? i = some true →
      CbEvent.warn (k + i) ∈ onEventEvents l k := by
  intro l
  induction l with
  | nil => intro k i hi; simp at hi
  | cons r rest ih =>
    intro k i hi
    cases i with
    | zero =>
      simp only [List.get?] at hi
      obtain rfl := Option.some.inj hi
      simp [onEventEvents]
    | succ i =>
      have := ih (k + 1) i (by simpa using hi)
      simp only [onEventEvents, List.mem_append]
      right
      convert this using 2
      omega

/-- C10: `_on_event` always returns 0, every registered callback of the
event is invoked even when an earlier one raised, and each callback that
raises has its exception caught and converted into a warning, so no
callback exception propagates to the native caller. -/
theorem c10_on_event (raises : List Bool) :
    (on_event raises).1 = 0
    ∧ (∀ i, i < raises.length → CbEvent.invoke i ∈ (on_event raises).2)
    ∧ (∀ i, raises.get? i = some true →
        CbEvent.warn i ∈ (on_event raises).2) := by
  refine ⟨rfl, fun i hi => ?_, fun i hi => ?_⟩
  · simpa using onEventEvents_invoke_mem raises 0 i hi
  · simpa using onEventEvents_warn_mem raises 0 i hi

theorem c10_on_event_witness :
    (on_event [false, true, false]).1 = 0
    ∧ CbEvent.invoke 2 ∈ (on_event [false, true, false]).2
    ∧ CbEvent.warn 1 ∈ (on_event [false, true, false]).2 := by
  obtain ⟨h1, h2, h3⟩ := c10_on_event [false, true, false]
  exact ⟨h1, h2 2 (by decide), h3 1 (by decide)⟩

theorem stop_alive_nil (w : ThreadState) (h : threadInv w) :
    (FifoReader.stop w).alive = [] := by
  obtain ⟨hmem, hlen⟩ := h
  cases hth : w.thread with
  | none =>
    have : w.alive = [] := by
      apply List.eq_nil_iff_forall_not_mem.mpr
      intro t ht
      have := hmem t ht
      rw [hth] at this
      exact Option.noConfusion this
    simp [FifoReader.stop, hth, this]
  | some t =>
    rcases halv : w.alive with - | ⟨a, rest⟩
    · simp [FifoReader.stop, hth, halv]
    · rcases rest with - | ⟨b, rest2⟩
      · have ha := hmem a (by rw [halv]; exact List.mem_cons_self a [])
        rw [hth] at ha
        obtain rfl := Option.some.inj ha
        simp [FifoReader.stop, hth, halv, List.erase_cons]
      · rw [halv] at hlen
        simp at hlen

theorem threadInv_step (e : AcqEvent) (w : ThreadState) (h : threadInv w) :
    threadInv (stepThreads e w) := by
  cases e with
  | acqStart =>
    have hnil := stop_alive_nil w h
    constructor
    · intro t ht
      simp only [stepThreads, FifoReader.start, hnil, List.nil_append,
        List.mem_singleton] at ht ⊢
      rw [ht]
    · simp [stepThreads, FifoReader.start, hnil]
  | acqStop =>
    have hnil := stop_alive_nil w h
    constructor
    · intro t ht
      simp only [stepThreads] at ht
      rw [hnil] at ht
      exact absurd ht (List.not_mem_nil t)
    · simp [stepThreads, hnil]
  | die t =>
    constructor
    · intro t' ht'
      exact h.1 t' (List.mem_of_mem_erase ht')
    · exact le_trans (List.erase_sublist t w.alive).length_le h.2

theorem runThreads_inv (evs : List AcqEvent) : threadInv (runThreads evs) := by
  have main : ∀ (l : List AcqEvent) (w : ThreadState), threadInv w →
      threadInv (l.foldl (fun w e => stepThreads e w) w) := by
    intro l
    induction l with
    | nil => intro w hw; exact hw
    | cons e l ih =>
      intro w hw
      exact ih (stepThreads e w) (threadInv_step e w hw)
  exact main evs initThreadState ⟨fun t ht => absurd ht (List.not_mem_nil t),
    by simp [initThreadState]⟩

/-- C3: the acquisition-start handler first runs `_stop` (which sets the
stopped flag, joins the previous thread if alive, and clears `_thread`)
and only then sets `stopped = False` and spawns exactly one new polling
thread; the acquisition-stop handler sets the stopped flag, joins and
clears the thread; consequently, starting from `__init__` and under any
sequence of start events, stop events and thread terminations, at most one
polling thread is alive at any time. -/
theorem c3_thread_lifecycle :
    (∀ w : ThreadState, FifoReader.start w
      = ⟨false, some (FifoReader.stop w).nextId,
          (FifoReader.stop w).alive ++ [(FifoReader.stop w).nextId],
          (FifoReader.stop w).nextId + 1⟩)
    ∧ (∀ w : ThreadState, (FifoReader.stop w).stopped = true
        ∧ (FifoReader.stop w).thread = none)
    ∧ (∀ w : ThreadState, threadInv w →
        (FifoReader.stop w).alive = []
        ∧ (FifoReader.start w).alive = [(FifoReader.stop w).nextId])
    ∧ (∀ evs : List AcqEvent, (runThreads evs).alive.length ≤ 1) := by
  refine ⟨fun w => rfl, fun w => ?_, fun w hw => ?_, fun evs =>
    (runThreads_inv evs).2⟩
  · cases hth : w.thread <;> simp [FifoReader.stop, hth]
  · have hnil := stop_alive_nil w hw
    exact ⟨hnil, by simp [FifoReader.start, hnil]⟩

theorem c3_thread_lifecycle_witness :
    (FifoReader.stop ⟨false, some 0, [0], 1⟩).alive = []
    ∧ (FifoReader.start ⟨false, some 0, [0], 1⟩).alive
        = [(FifoReader.stop ⟨false, some 0, [0], 1⟩).nextId] := by
  obtain ⟨-, -, h3, -⟩ := c3_thread_lifecycle
  refine h3 ⟨false, some 0, [0], 1⟩ ⟨?_, by decide⟩
  intro t ht
  simp only [List.mem_singleton] at ht
  subst ht
  rfl

theorem lookup_isSome_congr {β : Type} (name : String) :
    ∀ (l l' : List (String × β)), l.map Prod.fst = l'.map Prod.fst →
      (l.lookup name).isSome = (l'.lookup name).isSome := by
  intro l
  induction l with
  | nil =>
    intro l' h
    cases l' with
    | nil => rfl
    | cons hd tl => simp at h
  | cons hd tl ih =>
    intro l' h
    cases l' with
    | nil => simp at h
    | cons hd' tl' =>
      obtain ⟨k, v⟩ := hd
      obtain ⟨k', v'⟩ := hd'
      simp only [List.map_cons, List.cons.injEq] at h
      obtain ⟨rfl, h2⟩ := h
      cases hbeq : (name == k) <;>
        simp [List.lookup, hbeq, ih tl' h2]

theorem applySamples_lookup (ss : List Sample) :
    ∀ (chs : Channels) (j : Nat) (name : String) (s s2 : Sample),
      chs.lookup name = some s →
      ((applySamples ss chs j).1).lookup name = some s2 →
      s2 = s ∨ s2.value.isnan = false := by
  intro chs
  induction chs with
  | nil => intro j name s s2 h1 h2; simp [List.lookup] at h1
  | cons hd tl ih =>
    intro j name s s2 h1 h2
    obtain ⟨k, old⟩ := hd
    rcases hg : ss.get? j with - | smp
    · simp only [applySamples, hg] at h2
      rw [h1] at h2
      exact Or.inl (Option.some.inj h2).symm
    · by_cases hn : smp.value.isnan = true
      · simp only [applySamples, hg, hn, if_pos] at h2
        cases hbeq : (name == k) with
        | false =>
          simp only [List.lookup, hbeq] at h1 h2
          exact ih (j + 1) name s s2 h1 h2
        | true =>
          simp only [List.lookup, hbeq] at h1 h2
          rw [← Option.some.inj h1, ← Option.some.inj h2]
          exact Or.inl rfl
      · simp only [applySamples, hg, hn, Bool.false_eq_true, if_neg,
          not_false_iff] at h2
        cases hbeq : (name == k) with
        | false =>
          simp only [List.lookup, hbeq] at h1 h2
          exact ih (j + 1) name s s2 h1 h2
        | true =>
          simp only [List.lookup, hbeq] at h2
          rw [← Option.some.inj h2]
          exact Or.inr (by simpa using hn)

theorem drainSamples_lookup (env : IterEnv) (count : Nat) :
    ∀ (n i : Nat) (chs : Channels) (name : String) (s s2 : Sample),
      chs.lookup name = some s →
      ((drainSamples env count i n chs).1).lookup name = some s2 →
      s2 = s ∨ s2.value.isnan = false := by
  intro n
  induction n with
  | zero =>
    intro i chs name s s2 h1 h2
    simp only [drainSamples] at h2
    rw [h1] at h2
    exact Or.inl (Option.some.inj h2).symm
  | succ n ih =>
    intro i chs name s s2 h1 h2
    rcases hres : env.sampleRes i with c | samples <;>
      simp only [drainSamples, hres] at h2
    · rw [h1] at h2
      exact Or.inl (Option.some.inj h2).symm
    · rcases hexc : (applySamples samples chs 0).2.2 with - | e <;>
        simp only [hexc] at h2
      · have hsome : (((applySamples samples chs 0).1).lookup name).isSome
            = true := by
          rw [lookup_isSome_congr name (applySamples samples chs 0).1 chs
            (applySamples_map_fst samples chs 0), h1]
          rfl
        obtain ⟨s1, hs1⟩ := Option.isSome_iff_exists.mp hsome
        rcases ih (i + 1) (applySamples samples chs 0).1 name s1 s2 hs1 h2
          with h | h
        · subst h
          exact applySamples_lookup samples chs 0 name s s2 h1 hs1
        · exact Or.inr h
      · exact applySamples_lookup samples chs 0 name s s2 h1 h2

theorem readFifoIter_channels (env : IterEnv) (rate : Rat) (count : Nat)
    (chs : Channels) :
    (readFifoIter env rate count chs).channels = chs
    ∨ ∃ n, (readFifoIter env rate count chs).channels
        = (drainSamples env count 0 n chs).1 := by
  rcases hov : env.overrunErr with - | c
  · rcases hlv : env.levelRes with c | n
    · left
      rcases hex : true with - | -
      all_goals {
        by_cases hc : c = AEC_NO_VALUES_SAMPLED <;>
          simp [readFifoIter, hov, hlv, hc]
      }
    · right
      refine ⟨n, ?_⟩
      rcases hex : (drainSamples env count 0 n chs).2.2 with - | e2
      · simp [readFifoIter, hov, hlv, hex]
      · rcases e2 with c2 | -
        · by_cases hc : c2 = AEC_NO_VALUES_SAMPLED <;>
            simp [readFifoIter, hov, hlv, hex, hc]
        · simp [readFifoIter, hov, hlv, hex]
  · left
    by_cases hc : c = AEC_NO_VALUES_SAMPLED <;>
      simp [readFifoIter, hov, hc]

theorem readFifoIter_map_fst (env : IterEnv) (rate : Rat) (count : Nat)
    (chs : Channels) :
    ((readFifoIter env rate count chs).channels).map Prod.fst
      = chs.map Prod.fst := by
  rcases readFifoIter_channels env rate count chs with h | ⟨n, h⟩
  · rw [h]
  · rw [h]
    exact drainSamples_map_fst env count n 0 chs

theorem readFifoIter_lookup (env : IterEnv) (rate : Rat) (count : Nat)
    (chs : Channels) (name : String) (s s2 : Sample)
    (h1 : chs.lookup name = some s)
    (h2 : ((readFifoIter env rate count chs).channels).lookup name
        = some s2) :
    s2 = s ∨ s2.value.isnan = false := by
  rcases readFifoIter_channels env rate count chs with h | ⟨n, h⟩
  · rw [h, h1] at h2
    exact Or.inl (Option.some.inj h2).symm
  · rw [h] at h2
    exact drainSamples_lookup env count n 0 chs name s s2 h1 h2

theorem readFifoLoop_map_fst (renv : RunEnv) (rate : Rat) (count : Nat) :
    ∀ (fuel k : Nat) (chs : Channels) (r : RunOut),
      readFifoLoop renv rate count k fuel chs = some r →
      (r.channels).map Prod.fst = chs.map Prod.fst := by
  intro fuel
  induction fuel with
  | zero => intro k chs r h; simp [readFifoLoop] at h
  | succ fuel ih =>
    intro k chs r h
    by_cases hs : renv.stopSched k = true
    · simp only [readFifoLoop, hs, if_pos] at h
      obtain rfl := Option.some.inj h
      rfl
    · simp only [readFifoLoop, hs, if_neg, Bool.false_eq_true,
        not_false_iff] at h
      rcases hex : (readFifoIter (renv.iterEnv k) rate count chs).exc
        with - | e <;> rw [hex] at h
      · rcases hloop : readFifoLoop renv rate count (k + 1) fuel
            (readFifoIter (renv.iterEnv k) rate count chs).channels
          with - | r' <;> rw [hloop] at h
        · exact absurd h (by simp)
        · obtain rfl := Option.some.inj h
          rw [ih (k + 1) _ r' hloop]
          exact readFifoIter_map_fst (renv.iterEnv k) rate count chs
      · obtain rfl := Option.some.inj h
        exact readFifoIter_map_fst (renv.iterEnv k) rate count chs

theorem readFifoLoop_lookup (renv : RunEnv) (rate : Rat) (count : Nat) :
    ∀ (fuel k : Nat) (chs : Channels) (r : RunOut) (name : String)
      (s s2 : Sample),
      readFifoLoop renv rate count k fuel chs = some r →
      chs.lookup name = some s →
      (r.channels).lookup name = some s2 →
      s2 = s ∨ s2.value.isnan = false := by
  intro fuel
  induction fuel with
  | zero => intro k chs r name s s2 h _ _; simp [readFifoLoop] at h
  | succ fuel ih =>
    intro k chs r name s s2 h h1 h2
    by_cases hs : renv.stopSched k = true
    · simp only [readFifoLoop, hs, if_pos] at h
      obtain rfl := Option.some.inj h
      rw [h1] at h2
      exact Or.inl (Option.some.inj h2).symm
    · simp only [readFifoLoop, hs, if_neg, Bool.false_eq_true,
        not_false_iff] at h
      rcases hex : (readFifoIter (renv.iterEnv k) rate count chs).exc
        with - | e <;> rw [hex] at h
      · rcases hloop : readFifoLoop renv rate count (k + 1) fuel
            (readFifoIter (renv.iterEnv k) rate count chs).channels
          with - | r' <;> rw [hloop] at h
        · exact absurd h (by simp)
        · obtain rfl := Option.some.inj h
          have hsome : (((readFifoIter (renv.iterEnv k) rate count
              chs).channels).lookup name).isSome = true := by
            rw [lookup_isSome_congr name _ chs
              (readFifoIter_map_fst (renv.iterEnv k) rate count chs), h1]
            rfl
          obtain ⟨s1, hs1⟩ := Option.isSome_iff_exists.mp hsome
          rcases ih (k + 1) _ r' name s1 s2 hloop hs1 h2 with h3 | h3
          · subst h3
            exact readFifoIter_lookup (renv.iterEnv k) rate count chs
              name s s2 h1 hs1
          · exact Or.inr h3
      · obtain rfl := Option.some.inj h
        exact readFifoIter_lookup (renv.iterEnv k) rate count chs
          name s s2 h1 h2

theorem filter_nanwrite_drain (env : IterEnv) (count n i : Nat)
    (chs : Channels) :
    ((drainSamples env count i n chs).2.1).filter DaqEvent.isNanWrite
      = [] := by
  rw [List.filter_eq_nil_iff]
  intro e he
  rcases drainSamples_events env count n i chs e he with h | ⟨nm, s, h, hn⟩
  · subst h; simp [DaqEvent.isNanWrite]
  · subst h; simp [DaqEvent.isNanWrite, hn]

theorem readFifoIter_no_nanwrite (env : IterEnv) (rate : Rat) (count : Nat)
    (chs : Channels) :
    ((readFifoIter env rate count chs).trace).filter DaqEvent.isNanWrite
      = [] := by
  have hdrain : ∀ n, ((drainSamples env count 0 n chs).2.1).filter
      DaqEvent.isNanWrite = [] :=
    fun n => filter_nanwrite_drain env count n 0 chs
  rcases hov : env.overrunErr with - | c
  · rcases hlv : env.levelRes with c | n
    · simp only [readFifoIter, hov, hlv]
      by_cases hc : c = AEC_NO_VALUES_SAMPLED <;>
        simp [hc, List.filter, DaqEvent.isNanWrite]
    · rcases hex : (drainSamples env count 0 n chs).2.2 with - | e2
      · simp only [readFifoIter, hov, hlv, hex]
        simp [List.filter_append, List.filter_cons, hdrain n,
          DaqEvent.isNanWrite]
      · rcases e2 with c2 | -
        · simp only [readFifoIter, hov, hlv, hex]
          by_cases hc : c2 = AEC_NO_VALUES_SAMPLED <;>
            simp [hc, List.filter_append, List.filter_cons, hdrain n,
              DaqEvent.isNanWrite]
        · simp only [readFifoIter, hov, hlv, hex]
          simp [List.filter_append, List.filter_cons, hdrain n,
            DaqEvent.isNanWrite]
  · simp only [readFifoIter, hov]
    by_cases hc : c = AEC_NO_VALUES_SAMPLED <;>
      simp [hc, List.filter, DaqEvent.isNanWrite]

theorem readFifoLoop_no_nanwrite (renv : RunEnv) (rate : Rat)
    (count : Nat) :
    ∀ (fuel k : Nat) (chs : Channels) (r : RunOut),
      readFifoLoop renv rate count k fuel chs = some r →
      r.trace.filter DaqEvent.isNanWrite = [] := by
  intro fuel
  induction fuel with
  | zero => intro k chs r h; simp [readFifoLoop] at h
  | succ fuel ih =>
    intro k chs r h
    by_cases hs : renv.stopSched k = true
    · simp only [readFifoLoop, hs, if_pos] at h
      obtain rfl := Option.some.inj h
      rfl
    · simp only [readFifoLoop, hs, if_neg, Bool.false_eq_true,
        not_false_iff] at h
      rcases hex : (readFifoIter (renv.iterEnv k) rate count chs).exc
        with - | e <;> rw [hex] at h
      · rcases hloop : readFifoLoop renv rate count (k + 1) fuel
            (readFifoIter (renv.iterEnv k) rate count chs).channels
          with - | r' <;> rw [hloop] at h
        · exact absurd h (by simp)
        · obtain rfl := Option.some.inj h
          simp only [List.filter_append,
            readFifoIter_no_nanwrite (renv.iterEnv k) rate count chs,
            ih (k + 1) _ r' hloop, List.nil_append]
      · obtain rfl := Option.some.inj h
        exact readFifoIter_no_nanwrite (renv.iterEnv k) rate count chs

theorem lookup_append_of_none {β : Type} (name : String) :
    ∀ (l l' : List (String × β)), l.lookup name = none →
      (l ++ l').lookup name = l'.lookup name := by
  intro l
  induction l with
  | nil => intro l' _; rfl
  | cons hd tl ih =>
    intro l' h
    obtain ⟨k, v⟩ := hd
    cases hbeq : (name == k) with
    | false =>
      simp only [List.lookup, hbeq] at h
      simp only [List.cons_append, List.lookup, hbeq]
      exact ih l' h
    | true =>
      simp only [List.lookup, hbeq] at h
      exact Option.noConfusion h

/-- C8: over any `_read_fifo` run, no NaN-valued sample is ever written
into the channel map (every `setChannel` event carries a non-NaN value); a
channel's stored sample is either unchanged or ends holding a non-NaN
value, so a stored non-NaN value never reverts to NaN; and a freshly added
channel starts at `Sample(math.nan, math.nan)`. -/
theorem c8_nan_never_overwrites (renv : RunEnv) (rate : Rat)
    (count fuel : Nat) (chs : Channels) (r : RunOut) (name : String)
    (h : readFifo renv rate count fuel chs = some r) :
    r.trace.filter DaqEvent.isNanWrite = []
    ∧ (∀ s s2, chs.lookup name = some s →
        (r.channels).lookup name = some s2 →
        s2 = s ∨ s2.value.isnan = false)
    ∧ (∀ s s2, chs.lookup name = some s → s.value.isnan = false →
        (r.channels).lookup name = some s2 → s2.value.isnan = false)
    ∧ (∀ (st : ChanState) (pollingRate : Int) (saveToFile : Bool),
        st.channels.lookup name = none →
        ((add_channel none st name pollingRate
            saveToFile).st.channels).lookup name
          = some ⟨FVal.nan, FVal.nan⟩) := by
  have hcore : ∀ s s2, chs.lookup name = some s →
      (r.channels).lookup name = some s2 →
      s2 = s ∨ s2.value.isnan = false := by
    intro s s2 h1 h2
    simp only [readFifo] at h
    rcases hov : renv.initOverrunErr with - | c <;> rw [hov] at h
    · rcases hloop : readFifoLoop renv rate count 0 fuel chs
        with - | r' <;> rw [hloop] at h
      · exact absurd h (by simp)
      · obtain rfl := Option.some.inj h
        exact readFifoLoop_lookup renv rate count fuel 0 chs r' name
          s s2 hloop h1 h2
    · obtain rfl := Option.some.inj h
      rw [h1] at h2
      exact Or.inl (Option.some.inj h2).symm
  refine ⟨?_, hcore, ?_, ?_⟩
  · simp only [readFifo] at h
    rcases hov : renv.initOverrunErr with - | c <;> rw [hov] at h
    · rcases hloop : readFifoLoop renv rate count 0 fuel chs
        with - | r' <;> rw [hloop] at h
      · exact absurd h (by simp)
      · obtain rfl := Option.some.inj h
        simp [List.filter_cons, DaqEvent.isNanWrite,
          readFifoLoop_no_nanwrite renv rate count fuel 0 chs r' hloop]
    · obtain rfl := Option.some.inj h
      simp [List.filter, DaqEvent.isNanWrite]
  · intro s s2 h1 hnn h2
    rcases hcore s s2 h1 h2 with h3 | h3
    · rw [h3]; exact hnn
    · exact h3
  · intro st pollingRate saveToFile hnone
    have hns : (st.channels.lookup name).isSome = false := by
      rw [hnone]; rfl
    simp only [add_channel, hns, Bool.false_eq_true, if_neg,
      not_false_iff]
    rw [lookup_append_of_none name st.channels _ hnone]
    simp [List.lookup]

theorem c8_nan_never_overwrites_witness :
    (⟨[("a", ⟨FVal.num 5, FVal.num 0⟩)],
        [DaqEvent.checkOverrun true, DaqEvent.acquireLock,
          DaqEvent.checkOverrun false, DaqEvent.getFifoLevel (some 1),
          DaqEvent.getNextSample 1, DaqEvent.releaseLock,
          DaqEvent.sleep 1],
        none, 1⟩ : RunOut).trace.filter DaqEvent.isNanWrite = []
    ∧ (Sample.mk (FVal.num 5) (FVal.num 0)).value.isnan = false
    ∧ ((add_channel none ⟨[], 0⟩ "a" 10 false).st.channels).lookup "a"
        = some ⟨FVal.nan, FVal.nan⟩ := by
  obtain ⟨h1, -, h3, h4⟩ := c8_nan_never_overwrites
    ⟨fun k => decide (k = 1),
      fun _ => ⟨none, Except.ok 1, fun _ => Except.ok [⟨FVal.nan, FVal.nan⟩]⟩,
      none⟩ 1 1 3 [("a", ⟨FVal.num 5, FVal.num 0⟩)]
    ⟨[("a", ⟨FVal.num 5, FVal.num 0⟩)],
      [DaqEvent.checkOverrun true, DaqEvent.acquireLock,
        DaqEvent.checkOverrun false, DaqEvent.getFifoLevel (some 1),
        DaqEvent.getNextSample 1, DaqEvent.releaseLock, DaqEvent.sleep 1],
      none, 1⟩ "a" (by decide)
  exact ⟨h1,
    h3 ⟨FVal.num 5, FVal.num 0⟩ ⟨FVal.num 5, FVal.num 0⟩ (by decide)
      (by decide) (by decide),
    h4 ⟨[], 0⟩ 10 false (by decide)⟩

theorem readFifoLoop_benign (renv : RunEnv) (rate : Rat) (count : Nat)
    (hbenign : ∀ k chsk,
      (readFifoIter (renv.iterEnv k) rate count chsk).exc = none) :
    ∀ (m k fuel : Nat) (chs : Channels),
      (∀ j, j < m → renv.stopSched (k + j) = false) →
      renv.stopSched (k + m) = true →
      m < fuel →
      ∃ r, readFifoLoop renv rate count k fuel chs = some r
        ∧ r.iters = m ∧ r.exc = none := by
  intro m
  induction m with
  | zero =>
    intro k fuel chs hfalse htrue hfuel
    cases fuel with
    | zero => omega
    | succ fuel =>
      refine ⟨⟨chs, [], none, 0⟩, ?_, rfl, rfl⟩
      have h : renv.stopSched k = true := htrue
      simp [readFifoLoop, h]
  | succ m ih =>
    intro k fuel chs hfalse htrue hfuel
    cases fuel with
    | zero => omega
    | succ fuel =>
      have h0 : renv.stopSched k = false := by
        simpa using hfalse 0 (by omega)
      have hexc := hbenign k chs
      obtain ⟨r', hr', hit, hex⟩ := ih (k + 1) fuel
        (readFifoIter (renv.iterEnv k) rate count chs).channels
        (fun j hj => by
          have h1 := hfalse (j + 1) (by omega)
          have h2 : k + (j + 1) = k + 1 + j := by omega
          rwa [h2] at h1)
        (by
          have h2 : k + (m + 1) = k + 1 + m := by omega
          rwa [h2] at htrue)
        (by omega)
      refine ⟨⟨r'.channels,
        (readFifoIter (renv.iterEnv k) rate count chs).trace ++ r'.trace,
        r'.exc, r'.iters + 1⟩, ?_, by rw [hit], hex⟩
      simp only [readFifoLoop, h0, Bool.false_eq_true, if_neg,
        not_false_iff]
      rw [hexc, hr']

/-- C5 (amended): in runs where no iteration lets an exception escape
(every DLL call succeeds or raises only `AEC_NO_VALUES_SAMPLED`),
termination of the polling loop is governed solely by the `stopped` flag:
the loop body executes again exactly when the flag read at the top of the
loop is False, so when the flag first reads True at iteration `m` the loop
ends having executed exactly `m` iterations, with no exception involved.
(The unamended claim is refuted by `c5_counterexample`: a `CANapeError`
with a code other than `AEC_NO_VALUES_SAMPLED` re-raised by the iteration
also ends the loop, with the flag still False.) -/
theorem c5_flag_governs_without_errors (renv : RunEnv) (rate : Rat)
    (count m fuel : Nat) (chs : Channels)
    (hinit : renv.initOverrunErr = none)
    (hbenign : ∀ k chsk,
      (readFifoIter (renv.iterEnv k) rate count chsk).exc = none)
    (hmin : ∀ j, j < m → renv.stopSched j = false)
    (hstop : renv.stopSched m = true)
    (hfuel : m < fuel) :
    ∃ r, readFifo renv rate count fuel chs = some r
      ∧ r.iters = m ∧ r.exc = none := by
  obtain ⟨r', hr', hit, hex⟩ := readFifoLoop_benign renv rate count
    hbenign m 0 fuel chs (fun j hj => by simpa using hmin j hj)
    (by simpa using hstop) hfuel
  refine ⟨⟨r'.channels, DaqEvent.checkOverrun true :: r'.trace, r'.exc,
    r'.iters⟩, ?_, hit, hex⟩
  simp only [readFifo, hinit]
  rw [hr']

theorem c5_flag_governs_witness :
    ∃ r, readFifo
        ⟨fun k => decide (k = 1),
          fun _ => ⟨none, Except.ok 0, fun _ => Except.ok []⟩, none⟩
        1 0 3 [] = some r
      ∧ r.iters = 1 ∧ r.exc = none :=
  c5_flag_governs_without_errors
    ⟨fun k => decide (k = 1),
      fun _ => ⟨none, Except.ok 0, fun _ => Except.ok []⟩, none⟩
    1 0 1 3 [] rfl (fun k chsk => rfl)
    (fun j hj => by
      have hj0 : j = 0 := by omega
      subst hj0
      rfl)
    rfl (by decide)

theorem projTid_cons (t : Tid) (e : DllEvent) (s : List SchedStep) :
    projTid ((t, e) :: s)
      = if DllEvent.isNative e then t :: projTid s else projTid s := by
  by_cases h : DllEvent.isNative e = true <;>
    simp [projTid, List.filter_cons, h]

theorem consume_countA :
    ∀ (s : List SchedStep) (ra rb : List DllEvent) (owner : Option Tid)
      (depth : Nat),
      consume s ra rb owner depth = true →
      (projTid s).count Tid.A ≤ (ra.filter DllEvent.isNative).length := by
  intro s
  induction s with
  | nil => intro ra rb owner depth h; simp [projTid]
  | cons p s ih =>
    intro ra rb owner depth h
    obtain ⟨t, e⟩ := p
    have hba : (Tid.B == Tid.A) = false := by decide
    cases t with
    | A =>
      rcases ra with - | ⟨e', rest⟩
      · simp [consume] at h
      · rcases hls : lockStep owner depth Tid.A e with - | ⟨o2, d2⟩
        · simp [consume, hls] at h
        · simp only [consume, hls, Bool.and_eq_true,
            decide_eq_true_eq] at h
          obtain ⟨rfl, h2⟩ := h
          have hih := ih rest rb o2 d2 h2
          rw [projTid_cons]
          by_cases hn : DllEvent.isNative e = true
          · simp only [hn, if_pos, List.filter_cons, List.count_cons,
              beq_self_eq_true, if_pos, List.length_cons]
            omega
          · simp only [hn, Bool.false_eq_true, if_neg, not_false_iff,
              List.filter_cons]
            exact hih
    | B =>
      rcases rb with - | ⟨e', rest⟩
      · simp [consume] at h
      · rcases hls : lockStep owner depth Tid.B e with - | ⟨o2, d2⟩
        · simp [consume, hls] at h
        · simp only [consume, hls, Bool.and_eq_true,
            decide_eq_true_eq] at h
          obtain ⟨rfl, h2⟩ := h
          have hih := ih ra rest o2 d2 h2
          rw [projTid_cons]
          by_cases hn : DllEvent.isNative e = true
          · simp only [hn, if_pos, List.count_cons, hba,
              Bool.false_eq_true, if_neg, not_false_iff]
            omega
          · simp only [hn, Bool.false_eq_true, if_neg, not_false_iff]
            exact hih

theorem consume_countB :
    ∀ (s : List SchedStep) (ra rb : List DllEvent) (owner : Option Tid)
      (depth : Nat),
      consume s ra rb owner depth = true →
      (projTid s).count Tid.B ≤ (rb.filter DllEvent.isNative).length := by
  intro s
  induction s with
  | nil => intro ra rb owner depth h; simp [projTid]
  | cons p s ih =>
    intro ra rb owner depth h
    obtain ⟨t, e⟩ := p
    have hab : (Tid.A == Tid.B) = false := by decide
    cases t with
    | A =>
      rcases ra with - | ⟨e', rest⟩
      · simp [consume] at h
      · rcases hls : lockStep owner depth Tid.A e with - | ⟨o2, d2⟩
        · simp [consume, hls] at h
        · simp only [consume, hls, Bool.and_eq_true,
            decide_eq_true_eq] at h
          obtain ⟨rfl, h2⟩ := h
          have hih := ih rest rb o2 d2 h2
          rw [projTid_cons]
          by_cases hn : DllEvent.isNative e = true
          · simp only [hn, if_pos, List.count_cons, hab,
              Bool.false_eq_true, if_neg, not_false_iff]
            omega
          · simp only [hn, Bool.false_eq_true, if_neg, not_false_iff]
            exact hih
    | B =>
      rcases rb with - | ⟨e', rest⟩
      · simp [consume] at h
      · rcases hls : lockStep owner depth Tid.B e with - | ⟨o2, d2⟩
        · simp [consume, hls] at h
        · simp only [consume, hls, Bool.and_eq_true,
            decide_eq_true_eq] at h
          obtain ⟨rfl, h2⟩ := h
          have hih := ih ra rest o2 d2 h2
          rw [projTid_cons]
          by_cases hn : DllEvent.isNative e = true
          · simp only [hn, if_pos, List.filter_cons, List.count_cons,
              beq_self_eq_true, if_pos, List.length_cons]
            omega
          · simp only [hn, Bool.false_eq_true, if_neg, not_false_iff,
              List.filter_cons]
            exact hih

theorem consume_proj :
    ∀ (s : List SchedStep) (ra rb : List DllEvent) (owner : Option Tid)
      (depth : Nat),
      ConsumeInv ra rb owner depth →
      consume s ra rb owner depth = true →
      (owner = some Tid.A → ∃ m n,
        projTid s = List.replicate m Tid.A ++ List.replicate n Tid.B)
      ∧ (owner = some Tid.B → ∃ m n,
        projTid s = List.replicate n Tid.B ++ List.replicate m Tid.A)
      ∧ (owner = none → ∃ m n,
        projTid s = List.replicate m Tid.A ++ List.replicate n Tid.B
        ∨ projTid s = List.replicate n Tid.B ++ List.replicate m Tid.A) := by
  intro s
  induction s with
  | nil =>
    intro ra rb owner depth hinv h
    exact ⟨fun _ => ⟨0, 0, by simp [projTid]⟩,
      fun _ => ⟨0, 0, by simp [projTid]⟩,
      fun _ => ⟨0, 0, Or.inl (by simp [projTid])⟩⟩
  | cons p s ih =>
    intro ra rb owner depth hinv h
    obtain ⟨t, e⟩ := p
    cases t with
    | A =>
      rcases ra with - | ⟨e', rest⟩
      · simp [consume] at h
      rcases hls : lockStep owner depth Tid.A e with - | ⟨o2, d2⟩
      · simp [consume, hls] at h
      simp only [consume, hls, Bool.and_eq_true, decide_eq_true_eq] at h
      obtain ⟨heq2, h2⟩ := h
      subst heq2
      cases owner with
      | none =>
        simp only [ConsumeInv] at hinv
        obtain ⟨hd0, hia, hib⟩ := hinv
        rcases hia with heq | ⟨l, heq, hnat⟩
        · exact absurd heq (by simp)
        injection heq with he hrest
        subst he
        subst hrest
        subst hd0
        simp only [lockStep, true_or, if_true, Option.some.injEq,
          Prod.mk.injEq] at hls
        obtain ⟨rfl, rfl⟩ := hls
        have hinv2 : ConsumeInv
            (l ++ [DllEvent.lockRelease CANapeDll.lockId]) rb
            (some Tid.A) (0 + 1) :=
          ⟨rfl, ⟨l, rfl, hnat⟩, hib⟩
        obtain ⟨m, n, hproj⟩ :=
          (ih _ rb (some Tid.A) (0 + 1) hinv2 h2).1 rfl
        refine ⟨fun hco => Option.noConfusion hco,
          fun hco => Option.noConfusion hco, fun _ => ⟨m, n, Or.inl ?_⟩⟩
        simpa [projTid_cons, DllEvent.isNative] using hproj
      | some t0 =>
        cases t0 with
        | A =>
          simp only [ConsumeInv] at hinv
          obtain ⟨hd1, hmid, hib⟩ := hinv
          obtain ⟨l, heq, hnat⟩ := hmid
          cases l with
          | nil =>
            simp only [List.nil_append] at heq
            injection heq with he hrest
            subst he
            subst hrest
            subst hd1
            simp only [lockStep, if_true, Option.some.injEq,
              Prod.mk.injEq] at hls
            obtain ⟨rfl, rfl⟩ := hls
            have hinv2 : ConsumeInv [] rb none (1 - 1) :=
              ⟨rfl, Or.inl rfl, hib⟩
            obtain ⟨m, n, hdisj⟩ := (ih [] rb none (1 - 1) hinv2 h2).2.2 rfl
            refine ⟨fun _ => ?_, fun hco => by simp at hco,
              fun hco => Option.noConfusion hco⟩
            rcases hdisj with hp | hp
            · exact ⟨m, n, by
                simpa [projTid_cons, DllEvent.isNative] using hp⟩
            · have hcA := consume_countA s [] rb none (1 - 1) h2
              have hab : (Tid.B == Tid.A) = false := by decide
              have haa : (Tid.A == Tid.A) = true := by decide
              rw [hp] at hcA
              simp [List.count_append, List.count_replicate, hab, haa,
                List.filter] at hcA
              have hm0 : m = 0 := by omega
              subst hm0
              refine ⟨0, n, ?_⟩
              rw [projTid_cons]
              simp only [DllEvent.isNative, Bool.false_eq_true, if_neg,
                not_false_iff]
              rw [hp]
              simp
          | cons e2 l' =>
            simp only [List.cons_append] at heq
            injection heq with he hrest
            subst he
            subst hrest
            have hnav : DllEvent.isNative e = true :=
              hnat e (List.mem_cons_self e l')
            cases e with
            | lockAcquire lid => simp [DllEvent.isNative] at hnav
            | lockRelease lid => simp [DllEvent.isNative] at hnav
            | native nm =>
              simp only [lockStep, Option.some.injEq,
                Prod.mk.injEq] at hls
              obtain ⟨rfl, rfl⟩ := hls
              have hinv2 : ConsumeInv
                  (l' ++ [DllEvent.lockRelease CANapeDll.lockId]) rb
                  (some Tid.A) depth :=
                ⟨hd1, ⟨l', rfl,
                  fun x hx => hnat x (List.mem_cons_of_mem _ hx)⟩, hib⟩
              obtain ⟨m, n, hproj⟩ :=
                (ih _ rb (some Tid.A) depth hinv2 h2).1 rfl
              refine ⟨fun _ => ⟨m + 1, n, ?_⟩, fun hco => by simp at hco,
                fun hco => Option.noConfusion hco⟩
              rw [projTid_cons]
              simp only [DllEvent.isNative, if_pos]
              rw [hproj]
              simp [List.replicate_succ]
        | B =>
          simp only [ConsumeInv] at hinv
          obtain ⟨hd1, hia, hmidb⟩ := hinv
          rcases hia with heq | ⟨l, heq, hnat⟩
          · exact absurd heq (by simp)
          injection heq with he hrest
          subst he
          simp [lockStep] at hls
    | B =>
      rcases rb with - | ⟨e', rest⟩
      · simp [consume] at h
      rcases hls : lockStep owner depth Tid.B e with - | ⟨o2, d2⟩
      · simp [consume, hls] at h
      simp only [consume, hls, Bool.and_eq_true, decide_eq_true_eq] at h
      obtain ⟨heq2, h2⟩ := h
      subst heq2
      cases owner with
      | none =>
        simp only [ConsumeInv] at hinv
        obtain ⟨hd0, hia, hib⟩ := hinv
        rcases hib with heq | ⟨l, heq, hnat⟩
        · exact absurd heq (by simp)
        injection heq with he hrest
        subst he
        subst hrest
        subst hd0
        simp only [lockStep, true_or, if_true, Option.some.injEq,
          Prod.mk.injEq] at hls
        obtain ⟨rfl, rfl⟩ := hls
        have hinv2 : ConsumeInv ra
            (l ++ [DllEvent.lockRelease CANapeDll.lockId])
            (some Tid.B) (0 + 1) :=
          ⟨rfl, hia, ⟨l, rfl, hnat⟩⟩
        obtain ⟨m, n, hproj⟩ :=
          (ih ra _ (some Tid.B) (0 + 1) hinv2 h2).2.1 rfl
        refine ⟨fun hco => Option.noConfusion hco,
          fun hco => Option.noConfusion hco, fun _ => ⟨m, n, Or.inr ?_⟩⟩
        simpa [projTid_cons, DllEvent.isNative] using hproj
      | some t0 =>
        cases t0 with
        | B =>
          simp only [ConsumeInv] at hinv
          obtain ⟨hd1, hia, hmid⟩ := hinv
          obtain ⟨l, heq, hnat⟩ := hmid
          cases l with
          | nil =>
            simp only [List.nil_append] at heq
            injection heq with he hrest
            subst he
            subst hrest
            subst hd1
            simp only [lockStep, if_true, Option.some.injEq,
              Prod.mk.injEq] at hls
            obtain ⟨rfl, rfl⟩ := hls
            have hinv2 : ConsumeInv ra [] none (1 - 1) :=
              ⟨rfl, hia, Or.inl rfl⟩
            obtain ⟨m, n, hdisj⟩ := (ih ra [] none (1 - 1) hinv2 h2).2.2 rfl
            refine ⟨fun hco => by simp at hco, fun _ => ?_,
              fun hco => Option.noConfusion hco⟩
            rcases hdisj with hp | hp
            · have hcB := consume_countB s ra [] none (1 - 1) h2
              have hab : (Tid.A == Tid.B) = false := by decide
              have hbb : (Tid.B == Tid.B) = true := by decide
              rw [hp] at hcB
              simp [List.count_append, List.count_replicate, hab, hbb,
                List.filter] at hcB
              have hn0 : n = 0 := by omega
              subst hn0
              refine ⟨m, 0, ?_⟩
              rw [projTid_cons]
              simp only [DllEvent.isNative, Bool.false_eq_true, if_neg,
                not_false_iff]
              rw [hp]
              simp
            · exact ⟨m, n, by
                simpa [projTid_cons, DllEvent.isNative] using hp⟩
          | cons e2 l' =>
            simp only [List.cons_append] at heq
            injection heq with he hrest
            subst he
            subst hrest
            have hnav : DllEvent.isNative e = true :=
              hnat e (List.mem_cons_self e l')
            cases e with
            | lockAcquire lid => simp [DllEvent.isNative] at hnav
            | lockRelease lid => simp [DllEvent.isNative] at hnav
            | native nm =>
              simp only [lockStep, Option.some.injEq,
                Prod.mk.injEq] at hls
              obtain ⟨rfl, rfl⟩ := hls
              have hinv2 : ConsumeInv ra
                  (l' ++ [DllEvent.lockRelease CANapeDll.lockId])
                  (some Tid.B) depth :=
                ⟨hd1, hia, ⟨l', rfl,
                  fun x hx => hnat x (List.mem_cons_of_mem _ hx)⟩⟩
              obtain ⟨m, n, hproj⟩ :=
                (ih ra _ (some Tid.B) depth hinv2 h2).2.1 rfl
              refine ⟨fun hco => by simp at hco, fun _ => ⟨m, n + 1, ?_⟩,
                fun hco => Option.noConfusion hco⟩
              rw [projTid_cons]
              simp only [DllEvent.isNative, if_pos]
              rw [hproj]
              simp [List.replicate_succ]
        | A =>
          simp only [ConsumeInv] at hinv
          obtain ⟨hd1, hmida, hib⟩ := hinv
          rcases hib with heq | ⟨l, heq, hnat⟩
          · exact absurd heq (by simp)
          injection heq with he hrest
          subst he
          simp [lockStep] at hls

theorem nativesLocked_tail :
    ∀ (l : List DllEvent) (d : Nat), 0 < d → nativesOnly l →
      nativesLocked (l ++ [DllEvent.lockRelease CANapeDll.lockId]) d
        = true := by
  intro l
  induction l with
  | nil => intro d _ _; simp [nativesLocked]
  | cons e l ih =>
    intro d hd hnat
    have hnav : DllEvent.isNative e = true :=
      hnat e (List.mem_cons_self e l)
    have htl : nativesOnly l :=
      fun x hx => hnat x (List.mem_cons_of_mem e hx)
    cases e with
    | lockAcquire lid => simp [DllEvent.isNative] at hnav
    | lockRelease lid => simp [DllEvent.isNative] at hnav
    | native nm =>
      have hdec : decide (0 < d) = true := decide_eq_true hd
      simp only [List.cons_append, nativesLocked, hdec, Bool.true_and]
      exact ih d hd htl

/-- C6: every callable produced by `_map_symbol` — whether the symbol was
found or replaced by `_not_implemented` — is wrapped by `_synchronize`; a
synchronized call acquires the single class-level `CANapeDll.lock` as its
first event and releases it as its last, passing the outcome (return or
raise) through unchanged, so each native invocation happens while the lock
is held; and in every valid interleaving of two synchronized calls by two
threads under the reentrant-mutex semantics, the native invocations of the
two calls do not interleave (one call's natives all precede the
other's). -/
theorem c6_synchronized_calls {α : Type} :
    (∀ (funcName : String) (sym : Option (Call α)),
      ∃ inner, map_symbol funcName sym = synchronize inner)
    ∧ (∀ call : Call α,
        (synchronize call).trace
          = DllEvent.lockAcquire CANapeDll.lockId ::
              (call.trace ++ [DllEvent.lockRelease CANapeDll.lockId])
        ∧ (synchronize call).result = call.result)
    ∧ (∀ call : Call α, nativesOnly call.trace →
        nativesLocked (synchronize call).trace 0 = true)
    ∧ (∀ (ca cb : Call α) (s : List SchedStep),
        nativesOnly ca.trace → nativesOnly cb.trace →
        consume s (synchronize ca).trace (synchronize cb).trace none 0
          = true →
        ∃ m n,
          projTid s = List.replicate m Tid.A ++ List.replicate n Tid.B
          ∨ projTid s
            = List.replicate n Tid.B ++ List.replicate m Tid.A) := by
  refine ⟨?_, fun call => ⟨rfl, rfl⟩, ?_, ?_⟩
  · intro funcName sym
    cases sym with
    | none =>
      exact ⟨⟨[], Except.error (DllExc.notImplementedError funcName)⟩, rfl⟩
    | some raw => exact ⟨raw, rfl⟩
  · intro call hnat
    show nativesLocked (DllEvent.lockAcquire CANapeDll.lockId ::
      (call.trace ++ [DllEvent.lockRelease CANapeDll.lockId])) 0 = true
    simp only [nativesLocked]
    exact nativesLocked_tail call.trace 1 (by omega) hnat
  · intro ca cb s hna hnb hcons
    have hinv : ConsumeInv (synchronize ca).trace (synchronize cb).trace
        none 0 :=
      ⟨rfl, Or.inr ⟨ca.trace, rfl, hna⟩, Or.inr ⟨cb.trace, rfl, hnb⟩⟩
    exact (consume_proj s _ _ none 0 hinv hcons).2.2 rfl

theorem c6_synchronized_calls_witness :
    (∃ inner, map_symbol "Asap3GetVersion"
        (some (⟨[DllEvent.native "Asap3GetVersion"],
          Except.ok 0⟩ : Call Nat))
      = synchronize inner)
    ∧ nativesLocked (synchronize (⟨[DllEvent.native "Asap3GetVersion"],
        Except.ok 0⟩ : Call Nat)).trace 0 = true
    ∧ (∃ m n,
        projTid [(Tid.A, DllEvent.lockAcquire 0),
            (Tid.A, DllEvent.native "Asap3GetVersion"),
            (Tid.A, DllEvent.lockRelease 0),
            (Tid.B, DllEvent.lockAcquire 0),
            (Tid.B, DllEvent.native "Asap3Init5"),
            (Tid.B, DllEvent.lockRelease 0)]
          = List.replicate m Tid.A ++ List.replicate n Tid.B
        ∨ projTid [(Tid.A, DllEvent.lockAcquire 0),
            (Tid.A, DllEvent.native "Asap3GetVersion"),
            (Tid.A, DllEvent.lockRelease 0),
            (Tid.B, DllEvent.lockAcquire 0),
            (Tid.B, DllEvent.native "Asap3Init5"),
            (Tid.B, DllEvent.lockRelease 0)]
          = List.replicate n Tid.B ++ List.replicate m Tid.A) := by
  obtain ⟨h1, -, h3, h4⟩ := c6_synchronized_calls (α := Nat)
  refine ⟨h1 "Asap3GetVersion"
      (some ⟨[DllEvent.native "Asap3GetVersion"], Except.ok 0⟩),
    h3 ⟨[DllEvent.native "Asap3GetVersion"], Except.ok 0⟩
      (fun e he => by
        simp only [List.mem_singleton] at he
        subst he
        rfl),
    h4 ⟨[DllEvent.native "Asap3GetVersion"], Except.ok 0⟩
      ⟨[DllEvent.native "Asap3Init5"],
        Except.error (DllExc.canapeError 3)⟩
      [(Tid.A, DllEvent.lockAcquire 0),
        (Tid.A, DllEvent.native "Asap3GetVersion"),
        (Tid.A, DllEvent.lockRelease 0),
        (Tid.B, DllEvent.lockAcquire 0),
        (Tid.B, DllEvent.native "Asap3Init5"),
        (Tid.B, DllEvent.lockRelease 0)]
      (fun e he => by
        simp only [List.mem_singleton] at he
        subst he
        rfl)
      (fun e he => by
        simp only [List.mem_singleton] at he
        subst he
        rfl)
      (by decide)⟩

theorem c5_counterexample :
    ¬ (∀ (renv : RunEnv) (rate : Rat) (count fuel : Nat) (chs : Channels)
        (r : RunOut),
        readFifo renv rate count fuel chs = some r →
        (∀ k, k < 2 → renv.stopSched k = false) → 2 ≤ fuel →
        2 ≤ r.iters) := by
  intro hclaim
  have h := hclaim
    ⟨fun _ => false, fun _ => ⟨some 5, Except.ok 0, fun _ => Except.ok []⟩,
      none⟩
    1 0 2 []
    ⟨[], [DaqEvent.checkOverrun true, DaqEvent.acquireLock,
        DaqEvent.checkOverrun false, DaqEvent.releaseLock],
      some (PyExc.canapeError 5), 1⟩
    (by decide) (fun k _ => rfl) (by decide)
  exact absurd h (by decide)

end PyCANape
